import Mathlib

/-!
Verification of the download-tracking background worker
(`src/unnamed/part_003`, v2.6.0) of hitomi-auto-downloader.

The JavaScript source is shallowly embedded below.  Conventions of the
embedding, fixed once here:

* JS strings are Lean `String`s and most scanning works on `List Char`
  (code points).  JS `.length`/`substring` count UTF-16 code units; for
  the characters appearing in this program (BMP) the two agree.
* `null`/`undefined` string parameters are embedded as `""`: every string
  input of the translated functions is first filtered through a
  `if (!x) return ...` truthiness guard in the source, which identifies
  the two.  Optional values that are compared with `===` (download ids,
  gallery ids) are `Option`s.
* JS numbers arising here are integer-valued; they are embedded as
  `Nat`/`Int`.  The one place the source produces a non-integer —
  the bigram-similarity division — is embedded exactly: the result is
  `JSNum.nan` when the denominator is `0` (JS `0/0 = NaN`) and the
  JS `Math.round` (round half towards +infinity, arguments here are
  non-negative) of the exact rational otherwise.
* JS `Map` is an association list; `Map.set` overwrites in place keeping
  the insertion position and appends fresh keys, `Map` iteration is list
  order, matching JS insertion-order semantics.
* `Char.toLower` is the ASCII lowercasing used by `toLowerCase` on the
  ASCII range; the two differ only on non-ASCII cased letters, which the
  matching logic of this program treats as opaque.
-/

/-! ## Small JS primitives -/

/-- JS `\s` on the characters this program meets (ASCII whitespace). -/
def jsWs (c : Char) : Bool :=
  c = ' ' || c = '\t' || c = '\n' || c = '\r' || c = '\x0b' || c = '\x0c'

/-- ASCII digit, JS `[0-9]` (code points 48-57). -/
def isDigit (c : Char) : Bool := 48 ≤ c.toNat && c.toNat ≤ 57

/-- Numeric value of an ASCII digit run (JS `parseInt` on a digit string). -/
def digitsToNat (l : List Char) : Nat :=
  l.foldl (fun a c => a * 10 + (c.toNat - 48)) 0

/-- Does `l` start with `p` (character-exact)? -/
def startsWithList : List Char → List Char → Bool
  | _, [] => true
  | [], _ :: _ => false
  | c :: l, p :: ps => c = p && startsWithList l ps

/-- Does `l` start with the lowercase pattern `p`, case-insensitively
(JS `i` flag, ASCII)? -/
def startsWithCaseless : List Char → List Char → Bool
  | _, [] => true
  | [], _ :: _ => false
  | c :: l, p :: ps => c.toLower = p && startsWithCaseless l ps

/-- JS `String.prototype.includes`: does `l` contain `sub` as a contiguous
run?  (`sub = []` always holds, as in JS.) -/
def containsList (sub : List Char) : List Char → Bool
  | [] => sub.isEmpty
  | l@(_ :: rest) => startsWithList l sub || containsList sub rest

/-- JS `s.includes(sub)`. -/
def jsIncludes (s sub : String) : Bool := containsList sub.toList s.toList

/-- Drop JS whitespace from both ends (JS `trim` on the characters met here). -/
def trimWs (l : List Char) : List Char :=
  ((l.dropWhile jsWs).reverse.dropWhile jsWs).reverse

/-! ## JS `Map` as an association list (insertion order preserved) -/

def mapGet {α : Type} (m : List (Nat × α)) (k : Nat) : Option α :=
  (m.find? (fun p => p.1 == k)).map (·.2)

/-- JS `Map.set`: overwrite in place if the key exists, else append. -/
def mapSet {α : Type} (m : List (Nat × α)) (k : Nat) (v : α) : List (Nat × α) :=
  if m.any (fun p => p.1 == k) then
    m.map (fun p => if p.1 == k then (k, v) else p)
  else m ++ [(k, v)]

/-- JS `Map.delete`. -/
def mapDelete {α : Type} (m : List (Nat × α)) (k : Nat) : List (Nat × α) :=
  m.filter (fun p => p.1 ≠ k)

/-! ## String cleaning (`cleanTitle`, `cleanFilename`, `extractGalleryId`) -/

/-- Does `l` start with `\s*\|\s*Hitomi\.la` (case-insensitive)? -/
def isHitomiMarker (l : List Char) : Bool :=
  match l.dropWhile jsWs with
  | '|' :: r2 =>
      startsWithCaseless (r2.dropWhile jsWs) ['h','i','t','o','m','i','.','l','a']
  | _ => false

/-- `title.replace(/\s*\|\s*Hitomi\.la.*$/i, '')`: cut from the leftmost
marker occurrence to the end. -/
def cutHitomi : List Char → List Char
  | [] => []
  | l@(c :: rest) => if isHitomiMarker l then [] else c :: cutHitomi rest

/-- `cleanTitle` of the source (line 41). -/
def cleanTitle (s : String) : String :=
  if s = "" then "" else ⟨trimWs (cutHitomi s.toList)⟩

/-- Strip a case-insensitive `.zip` suffix (JS `replace(/\.zip$/i,'')`). -/
def stripZip (l : List Char) : List Char :=
  match l.reverse with
  | p :: i :: z :: dot :: rest =>
      if dot = '.' && z.toLower = 'z' && i.toLower = 'i' && p.toLower = 'p' then
        rest.reverse
      else l
  | _ => l

/-- `cleanFilename` of the source (line 46): last path segment
(`split(/[\\\/]/).pop() || filepath`), drop `.zip`, trim. -/
def cleanFilename (s : String) : String :=
  if s = "" then ""
  else
    let l := s.toList
    let seg := (l.reverse.takeWhile (fun c => c ≠ '/' && c ≠ '\\')).reverse
    let seg2 := if seg.isEmpty then l else seg
    ⟨trimWs (stripZip seg2)⟩

/-- Leftmost match of `-(\d+)\.html` (source line 52). -/
def scanGid : List Char → Option (List Char)
  | [] => none
  | c :: rest =>
      if c = '-' then
        let ds := rest.takeWhile isDigit
        if !ds.isEmpty && startsWithList (rest.dropWhile isDigit) ['.','h','t','m','l'] then
          some ds
        else scanGid rest
      else scanGid rest

/-- `extractGalleryId` of the source (line 52). -/
def extractGalleryId (s : String) : Option String :=
  if s = "" then none else (scanGid s.toList).map (fun ds => ⟨ds⟩)

/-! ## Episode-number extraction (`extractEpisodeNumbers`, lines 59-106) -/

/-- Fullwidth digit `０`-`９` (code points 65296-65305). -/
def zenDigit (c : Char) : Bool := 65296 ≤ c.toNat && c.toNat ≤ 65305

/-- The character class `[0-9０-９一二三四五六七八九十百]`. -/
def japNumChar (c : Char) : Bool :=
  isDigit c || zenDigit c ||
    (c ∈ ['一','二','三','四','五','六','七','八','九','十','百'])

/-- The counter class `[話巻章部編]`. -/
def counterChar (c : Char) : Bool := c ∈ ['話','巻','章','部','編']

/-- One character of `normalizeNumber`'s conversion loop: fullwidth digits
and the mapped kanji become digit strings (`十` becomes `"10"`), everything
else is kept (`百` has no entry in the source's table and is kept). -/
def convChar (c : Char) : List Char :=
  match c with
  | '０' => ['0'] | '１' => ['1'] | '２' => ['2'] | '３' => ['3'] | '４' => ['4']
  | '５' => ['5'] | '６' => ['6'] | '７' => ['7'] | '８' => ['8'] | '９' => ['9']
  | '一' => ['1'] | '二' => ['2'] | '三' => ['3'] | '四' => ['4'] | '五' => ['5']
  | '六' => ['6'] | '七' => ['7'] | '八' => ['8'] | '九' => ['9'] | '十' => ['1','0']
  | _ => [c]

/-- JS `parseInt(x) || 0`: value of the leading digit run, `0` when there is
none (covers both `NaN` and a parsed `0`, which are equally falsy). -/
def parseIntPrefixOrZero (l : List Char) : Nat :=
  let ds := l.takeWhile isDigit
  if ds.isEmpty then 0 else digitsToNat ds

/-- `normalizeNumber` of the source (line 92). -/
def normalizeNumber (l : List Char) : Nat :=
  if !l.isEmpty && l.all isDigit then digitsToNat l
  else parseIntPrefixOrZero (l.foldr (fun c acc => convChar c ++ acc) [])

/-- `matchAll(/第([0-9０-９一二三四五六七八九十百]+)[話巻章部編]/g)`:
greedy numeral run after `第` followed by a counter character;
non-overlapping left-to-right scan.  `fuel ≥ length` makes the recursion
structural; it is instantiated with the list length. -/
def scanJapGo : Nat → List Char → List Nat
  | 0, _ => []
  | _, [] => []
  | fuel + 1, c :: rest =>
      if c = '第' then
        let run := rest.takeWhile japNumChar
        match rest.dropWhile japNumChar with
        | c2 :: rest2 =>
            if !run.isEmpty && counterChar c2 then
              normalizeNumber run :: scanJapGo fuel rest2
            else scanJapGo fuel rest
        | [] => scanJapGo fuel rest
      else scanJapGo fuel rest

/-- `\s*` then `([0-9]+)`: maximal whitespace run, then at least one digit;
returns the value and the remainder after the digits. -/
def digitsGrab (r : List Char) : Option (Nat × List Char) :=
  let r2 := r.dropWhile jsWs
  let ds := r2.takeWhile isDigit
  if ds.isEmpty then none else some (digitsToNat ds, r2.dropWhile isDigit)

/-- The `\.?\s*([0-9]+)` step after an `optDot` keyword: the regex
greedily consumes a dot first; if no digits follow it backtracks to the
dot-less reading. -/
def dotFallback (r : List Char) : Option (Nat × List Char) :=
  match r with
  | '.' :: r1 =>
      (match digitsGrab r1 with
       | some x => some x
       | none => digitsGrab ('.' :: r1))
  | _ => digitsGrab r

def tryAlt (l : List Char) (kw : List Char) (optDot : Bool) : Option (Nat × List Char) :=
  match matchCaselessRest l kw with
  | none => none
  | some r => if optDot then dotFallback r else digitsGrab r
where
  matchCaselessRest : List Char → List Char → Option (List Char)
    | m, [] => some m
    | [], _ :: _ => none
    | c :: m, p :: ps => if c.toLower = p then matchCaselessRest m ps else none

/-- `(?:Vol\.?|Part|Episode|Ep\.?|Ch\.?|Chapter)\s*([0-9]+)` at one
position, alternatives tried in the source order with backtracking. -/
def tryEnglish (l : List Char) : Option (Nat × List Char) :=
  tryAlt l ['v','o','l'] true <|>
  tryAlt l ['p','a','r','t'] false <|>
  tryAlt l ['e','p','i','s','o','d','e'] false <|>
  tryAlt l ['e','p'] true <|>
  tryAlt l ['c','h'] true <|>
  tryAlt l ['c','h','a','p','t','e','r'] false

/-- Non-overlapping left-to-right scan with the English patterns
(`matchAll` with the `g` flag). -/
def scanEngGo : Nat → List Char → List Nat
  | 0, _ => []
  | _, [] => []
  | fuel + 1, l@(_ :: rest) =>
      match tryEnglish l with
      | some (n, r) => n :: scanEngGo fuel r
      | none => scanEngGo fuel rest

/-- `str.match(/\s*(\d+)\s*$/)`: the final digit run when only whitespace
follows it. -/
def trailingNum (l : List Char) : List Nat :=
  let r := l.reverse.dropWhile jsWs
  let ds := r.takeWhile isDigit
  if ds.isEmpty then [] else [digitsToNat ds.reverse]

/-- The open-bracket class `[(\[（【]`. -/
def openBr (c : Char) : Bool := c ∈ ['(', '[', '（', '【']

/-- The close-bracket class `[)\]）】]`. -/
def closeBr (c : Char) : Bool := c ∈ [')', ']', '）', '】']

/-- `matchAll(/[(\[（【](\d+)[)\]）】]/g)`. -/
def scanBrGo : Nat → List Char → List Nat
  | 0, _ => []
  | _, [] => []
  | fuel + 1, c :: rest =>
      if openBr c then
        let ds := rest.takeWhile isDigit
        match rest.dropWhile isDigit with
        | c2 :: rest2 =>
            if !ds.isEmpty && closeBr c2 then
              digitsToNat ds :: scanBrGo fuel rest2
            else scanBrGo fuel rest
        | [] => scanBrGo fuel rest
      else scanBrGo fuel rest

/-- `[...new Set(numbers)]`: dedupe keeping first occurrences. -/
def dedupGo : List Nat → List Nat → List Nat
  | _, [] => []
  | seen, a :: l => if a ∈ seen then dedupGo seen l else a :: dedupGo (a :: seen) l

def jsSetList (l : List Nat) : List Nat := dedupGo [] l

/-- `extractEpisodeNumbers` of the source (line 59): the four pattern
families in source order, then set-dedup. -/
def extractEpisodeNumbers (s : String) : List Nat :=
  if s = "" then []
  else
    let l := s.toList
    jsSetList (scanJapGo l.length l ++ scanEngGo l.length l ++
      trailingNum l ++ scanBrGo l.length l)

/-! ## Normalization (`normalizeForComparison`, line 109) -/

/-- The characters of the stripped decorative class
`[「」『』【】\[\]()（）\{\}<>《》♡♥★☆]`. -/
def stripChars : List Char :=
  ['「','」','『','』','【','】','[',']','(',')','（','）',
   '\x7b','\x7d','<','>','《','》','♡','♥','★','☆']

/-- Membership in the stripped decorative class. -/
def stripSym (c : Char) : Bool := c ∈ stripChars

/-- The characters of the space-replaced class `[.\-_～~→]`. -/
def dotChars : List Char := ['.','-','_','～','~','→']

/-- Membership in the space-replaced class. -/
def dotSym (c : Char) : Bool := c ∈ dotChars

/-- `replace(/\s+/g, ' ')`: every maximal whitespace run becomes one space. -/
def collapseWsL : List Char → List Char
  | [] => []
  | [c] => [if jsWs c then ' ' else c]
  | c :: d :: rest =>
      if jsWs c && jsWs d then collapseWsL (d :: rest)
      else (if jsWs c then ' ' else c) :: collapseWsL (d :: rest)

/-- `normalizeForComparison` of the source (line 109). -/
def normalizeForComparison (s : String) : String :=
  if s = "" then ""
  else
    ⟨trimWs (collapseWsL
      (((s.toList.map Char.toLower).filter (fun c => !stripSym c)).map
        (fun c => if dotSym c then ' ' else c)))⟩

/-! ## Scoring (`calculateMatchScore` / `getBigrams`, lines 120-205) -/

/-- A JS number that is either an integer or `NaN` (the only two shapes the
scorer can produce). -/
inductive JSNum where
  | nan : JSNum
  | int : Int → JSNum
deriving DecidableEq, Repr

/-- `getBigrams` (line 199): adjacent character pairs. -/
def getBigrams (l : List Char) : List (Char × Char) := l.zip l.tail

/-- Rule 1 guard: `galleryId && (filename.includes(galleryId) ||
cleanedFilename.includes(galleryId))` — JS truthiness makes `""` fail. -/
def galleryIdHit (galleryId : Option String) (filename cleanedFilename : String) : Bool :=
  match galleryId with
  | none => false
  | some g => g ≠ "" && (jsIncludes filename g || jsIncludes cleanedFilename g)

/-- `filenameNums.some(n => titleNums.includes(n))`. -/
def hasCommonNum (a b : List Nat) : Bool := a.any (fun n => b.contains n)

/-- `calculateMatchScore` of the source (line 120), rules in source order,
first hit returns.  The bigram fallback is `Math.round(2·I/(L1+L2) · 70)`,
i.e. `NaN` when `L1+L2 = 0` and the half-up rounding of `140·I/(L1+L2)`
otherwise. -/
def calculateMatchScore (filename tabTitle : String) (galleryId : Option String) : JSNum :=
  let cleanedFilename := cleanFilename filename
  let cleanedTitle := cleanTitle tabTitle
  if galleryIdHit galleryId filename cleanedFilename then .int 100
  else if cleanedFilename = cleanedTitle then .int 100
  else
    let normFilename := normalizeForComparison cleanedFilename
    let normTitle := normalizeForComparison cleanedTitle
    if normFilename = normTitle then .int 98
    else
      let filenameNums := extractEpisodeNumbers cleanedFilename
      let titleNums := extractEpisodeNumbers cleanedTitle
      if !filenameNums.isEmpty && !titleNums.isEmpty &&
          !hasCommonNum filenameNums titleNums then .int 10
      else if jsIncludes normFilename normTitle || jsIncludes normTitle normFilename then
        .int 85
      else
        let minLen := min normFilename.toList.length normTitle.toList.length
        let compareLen := min minLen 25
        if 5 < compareLen &&
            normFilename.toList.take compareLen = normTitle.toList.take compareLen then
          .int 80
        else
          let b1 := getBigrams normFilename.toList
          let b2 := getBigrams normTitle.toList
          let inter := (b1.filter (fun b => b2.contains b)).length
          let denom := b1.length + b2.length
          if denom = 0 then .nan
          else .int (Int.ofNat ((280 * inter + denom) / (2 * denom)))

/-! ## Task registry state and the matcher (`matchDownloadToTab`, line 208) -/

/-- One value of the `downloadState` map (`handleStartDownloads`, line 489).
`status` is the literal JS status string; absent JS fields of partially
constructed records are embedded as `""`/`none`/`false`/`0`. -/
structure TabState where
  status : String
  downloadId : Option Nat
  details : String
  progress : Int
  url : String
  title : String
  galleryId : Option String
  hadProgressBar : Bool
  startTime : Nat
deriving DecidableEq, Repr

/-- JS truthiness of a stored `downloadId` (a number or `null`): `0` is
falsy. -/
def jsTruthyId : Option Nat → Bool
  | none => false
  | some n => n ≠ 0

/-- The two `continue` guards of the matcher loop (lines 218-219): state is
`'in-progress'` and `state.downloadId` is falsy. -/
def isCandidate (st : TabState) : Bool :=
  st.status = "in-progress" && !jsTruthyId st.downloadId

/-- The score the matcher computes for one task (line 221). -/
def scoreOf (filename : String) (st : TabState) : JSNum :=
  calculateMatchScore filename st.title st.galleryId

/-- The matcher loop (lines 212-228): running `(bestMatch, bestScore)`,
updated on strict improvement (`score > bestScore`, false for `NaN`). -/
def bestOf (filename : String) : List (Nat × TabState) → Option Nat × Int → Option Nat × Int
  | [], acc => acc
  | (i, st) :: rest, acc =>
      if isCandidate st then
        match scoreOf filename st with
        | .nan => bestOf filename rest acc
        | .int n => if acc.2 < n then bestOf filename rest (some i, n) else bestOf filename rest acc
      else bestOf filename rest acc

/-- Overwrite the winner's `downloadId` in place (lines 239-241). -/
def updOne (tid d : Nat) (p : Nat × TabState) : Nat × TabState :=
  if p.1 = tid then (p.1, { p.2 with downloadId := some d }) else p

/-- `matchDownloadToTab` of the source (line 208); the unused `url`
parameter is dropped.  Binds when `bestMatch !== null && bestScore >= 30`
(line 238) and reports whether it bound. -/
def matchDownloadToTab (d : Nat) (filename : String) (tabs : List (Nat × TabState)) :
    Bool × List (Nat × TabState) :=
  match bestOf filename tabs (none, 0) with
  | (some tid, bs) => if 30 ≤ bs then (true, tabs.map (updOne tid d)) else (false, tabs)
  | (none, _) => (false, tabs)

/-- The default record `{ downloadId: null, progress: 0 }` of
`updateTabState` (line 565), undefined fields embedded as blanks. -/
def defaultRecord : TabState :=
  { status := "", downloadId := none, details := "", progress := 0, url := "",
    title := "", galleryId := none, hadProgressBar := false, startTime := 0 }

/-- `updateTabState` of the source (line 564): fetch-or-default, overwrite
status and details, store back.  (Broadcast and persistence are external
side effects with no state in this model.) -/
def updateTabState (tabs : List (Nat × TabState)) (tabId : Nat) (status details : String) :
    List (Nat × TabState) :=
  let st := (mapGet tabs tabId).getD defaultRecord
  mapSet tabs tabId { st with status := status, details := details }

/-! ## The event system (listeners and handlers of the worker) -/

/-- One entry of `unmatchedDownloads` (line 11); a JS `null` filename is
embedded as `""` (both are falsy at every use, line 341). -/
structure UnmatchedInfo where
  filename : String
  url : String
deriving DecidableEq, Repr

/-- The worker's mutable state: the `downloadState` map and the
`unmatchedDownloads` map.  (`monitoredTabs` only gates which poll events
fire; the model lets a poll event target any tab, which only enlarges the
behaviour set of this safety model.) -/
structure Sys where
  tabs : List (Nat × TabState)
  unmatched : List (Nat × UnmatchedInfo)
deriving DecidableEq, Repr

/-- A poll result as returned by the injected classifier
(`getProgressFromPage`): a status string and a progress value. -/
structure PollRes where
  status : String
  progress : Int
deriving DecidableEq, Repr

/-- The serialized handler invocations of the worker.  `startTask` and
`retryTask` are single iterations of `handleStartDownloads` (line 482) and
`handleRetryDownloads` (line 521); `created`/`nameDetermined`/`terminal`
are the `chrome.downloads` listeners (lines 325, 339, 351) with a JS
`null` filename embedded as `""`; `poll` is `pollTabProgress` (line 255)
with the environment-chosen classifier result (`none` = script failure);
the remaining constructors are the message-handler cases (line 395). -/
inductive Ev where
  | startTask (tabId : Nat) (url title : String) (time : Nat)
  | retryTask (tabId : Nat) (url title : String) (time : Nat)
  | created (d : Nat) (filename url : String)
  | nameDetermined (d : Nat) (name : String)
  | terminal (d : Nat) (cur err : String)
  | poll (tabId : Nat) (res : Option PollRes)
  | clicked (tabId : Nat)
  | progressMsg (tabId : Nat) (p : Int)
  | errorMsg (tabId : Nat) (err : String)
  | clearCompleted
deriving DecidableEq, Repr

/-- The fresh record written by `handleStartDownloads` (line 489) /
`handleRetryDownloads` (line 531). -/
def newTaskRecord (url title : String) (time : Nat) (details : String) : TabState :=
  { status := "in-progress", downloadId := none, details := details, progress := 0,
    url := url, title := title, galleryId := extractGalleryId url,
    hadProgressBar := false, startTime := time }

/-- The record written by the poller on a `downloading` result
(lines 267-271 of the source, all mutations of the aliased map object). -/
def pollDownloadingRec (st : TabState) (pr : Int) : TabState :=
  { st with progress := pr, status := "in-progress", details := toString pr ++ "%", hadProgressBar := true }

/-- The record written by the poller on a `preparing` result with a
previously seen progress bar and no bound download (lines 272-275). -/
def pollPreparingRec (st : TabState) (pr : Int) : TabState :=
  { st with progress := pr, status := "in-progress", details := "ZIP準備中..." }

/-- The record after only the unconditional progress write (line 267). -/
def pollProgressRec (st : TabState) (pr : Int) : TabState :=
  { st with progress := pr }

/-- `pollTabProgress` (lines 255-281): the progress field is written for
every result; status/details change only for `downloading` and for
`preparing` with a previously seen progress bar and no bound download. -/
def pollApply (tabs : List (Nat × TabState)) (tabId : Nat) :
    Option PollRes → List (Nat × TabState)
  | none => tabs
  | some r =>
      match mapGet tabs tabId with
      | none => tabs
      | some st =>
          if r.status = "downloading" then
            mapSet tabs tabId (pollDownloadingRec st r.progress)
          else if r.status = "preparing" then
            if st.hadProgressBar && !jsTruthyId st.downloadId then
              mapSet tabs tabId (pollPreparingRec st r.progress)
            else mapSet tabs tabId (pollProgressRec st r.progress)
          else mapSet tabs tabId (pollProgressRec st r.progress)

/-- The record written by the `DOWNLOAD_CLICKED` handler (lines 411-418). -/
def clickedRec (st : TabState) : TabState :=
  { st with hadProgressBar := false, status := "in-progress", details := "ボタンクリック完了" }

/-- The record written by the `DOWNLOAD_PROGRESS` handler when the task
exists (lines 422-431). -/
def progressMsgRec (st : TabState) (pr : Int) : TabState :=
  { st with progress := pr, hadProgressBar := true, status := "in-progress", details := toString pr ++ "%" }

/-- One serialized handler step of the worker, translated listener by
listener from the source (v2.6.0 half of `part_003`). -/
def stepF (s : Sys) : Ev → Sys
  | .startTask tabId url title time =>
      { s with tabs := mapSet s.tabs tabId (newTaskRecord url title time "処理中...") }
  | .retryTask tabId url title time =>
      { s with tabs := mapSet s.tabs tabId (newTaskRecord url title time "ダウンロード開始...") }
  | .created d filename url =>
      if filename ≠ "" then
        let r := matchDownloadToTab d filename s.tabs
        if r.1 then { s with tabs := r.2 }
        else { s with tabs := r.2, unmatched := mapSet s.unmatched d ⟨filename, url⟩ }
      else { s with unmatched := mapSet s.unmatched d ⟨"", url⟩ }
  | .nameDetermined d name =>
      if name ≠ "" then
        match mapGet s.unmatched d with
        | some info =>
            if info.filename = "" then
              let um1 := mapSet s.unmatched d ⟨name, info.url⟩
              let r := matchDownloadToTab d name s.tabs
              if r.1 then { tabs := r.2, unmatched := mapDelete um1 d }
              else { tabs := r.2, unmatched := um1 }
            else s
        | none => s
      else s
  | .terminal d cur err =>
      match s.tabs.find? (fun p => p.2.downloadId == some d) with
      | some p =>
          if cur = "complete" then
            { tabs := updateTabState s.tabs p.1 "complete" "",
              unmatched := mapDelete s.unmatched d }
          else if cur = "interrupted" then
            { tabs := updateTabState s.tabs p.1 "error" (if err = "" then "中断" else err),
              unmatched := mapDelete s.unmatched d }
          else s
      | none =>
          if cur = "complete" then
            match mapGet s.unmatched d with
            | some info =>
                if info.filename ≠ "" then
                  let r := matchDownloadToTab d info.filename s.tabs
                  let tabs2 :=
                    if r.1 then
                      match r.2.find? (fun p => p.2.downloadId == some d) with
                      | some q => updateTabState r.2 q.1 "complete" ""
                      | none => r.2
                    else r.2
                  { tabs := tabs2, unmatched := mapDelete s.unmatched d }
                else s
            | none => s
          else s
  | .poll tabId res => { s with tabs := pollApply s.tabs tabId res }
  | .clicked tabId =>
      { s with tabs := mapSet s.tabs tabId (clickedRec ((mapGet s.tabs tabId).getD defaultRecord)) }
  | .progressMsg tabId p =>
      match mapGet s.tabs tabId with
      | some st => { s with tabs := mapSet s.tabs tabId (progressMsgRec st p) }
      | none =>
          { s with tabs := updateTabState s.tabs tabId "in-progress" (toString p ++ "%") }
  | .errorMsg tabId err => { s with tabs := updateTabState s.tabs tabId "error" err }
  | .clearCompleted => { s with tabs := s.tabs.filter (fun p => p.2.status ≠ "complete") }

/-- Environmental constraints on an event: `chrome.downloads.onCreated`
delivers each download id exactly once, so a `created` id is positive (ids
from the downloads API are positive integers), not yet bound to any task
and not yet parked.  All other events are unconstrained. -/
def okEvent (s : Sys) : Ev → Prop
  | .created d _ _ =>
      d ≠ 0 ∧ (∀ i st, (i, st) ∈ s.tabs → st.downloadId ≠ some d) ∧
        mapGet s.unmatched d = none
  | _ => True

/-- States reachable from the worker's initial empty state through
environment-respecting events. -/
inductive Reachable : Sys → Prop
  | init : Reachable ⟨[], []⟩
  | step {s : Sys} {e : Ev} : Reachable s → okEvent s e → Reachable (stepF s e)

/-- The steps that attempt or perform event-to-task binding (every call
site of `matchDownloadToTab`). -/
def isMatchingEvent : Ev → Prop
  | .created _ _ _ => True
  | .nameDetermined _ _ => True
  | .terminal _ _ _ => True
  | _ => False

/-- The download id an event refers to. -/
def evDownloadId : Ev → Option Nat
  | .created d _ _ => some d
  | .nameDetermined d _ => some d
  | .terminal d _ _ => some d
  | _ => none

/-! ## The state invariant used for the binding claims -/

/-- Association-list well-formedness: keys occur once. -/
def KeysNodup {α : Type} (m : List (Nat × α)) : Prop := (m.map Prod.fst).Nodup

/-- No two distinct tasks hold the same bound download id. -/
def BoundInj (tabs : List (Nat × TabState)) : Prop :=
  ∀ i j sti stj d, (i, sti) ∈ tabs → (j, stj) ∈ tabs →
    sti.downloadId = some d → stj.downloadId = some d → i = j

/-- A download parked with no filename has never been bound. -/
def ParkedUnbound (s : Sys) : Prop :=
  ∀ d info, (d, info) ∈ s.unmatched → info.filename = "" →
    ∀ i st, (i, st) ∈ s.tabs → st.downloadId ≠ some d

/-- No task is bound to id `0` (ids are positive; a stored `0` would be
falsy and behave as unbound at the truthiness guards). -/
def NoZeroBound (tabs : List (Nat × TabState)) : Prop :=
  ∀ i st, (i, st) ∈ tabs → st.downloadId ≠ some 0

/-- Parked download ids are positive. -/
def UnmatchedPos (s : Sys) : Prop := ∀ info, (0, info) ∉ s.unmatched

/-- The inductive invariant of the worker state. -/
def SysInv (s : Sys) : Prop :=
  KeysNodup s.tabs ∧ KeysNodup s.unmatched ∧ BoundInj s.tabs ∧
    ParkedUnbound s ∧ NoZeroBound s.tabs ∧ UnmatchedPos s

/-- A reachable registry in which map (insertion) order disagrees with
`startTime` order: tab 1 is started, tab 2 is started, then tab 1 is
started again — `Map.set` keeps tab 1 in first position but renews its
`startTime`, so tab 1 now sits before tab 2 while having the later
`startTime`. -/
def tieState : Sys :=
  stepF (stepF (stepF ⟨[], []⟩ (Ev.startTask 1 "u" "hello world" 1))
    (Ev.startTask 2 "u" "hello world" 2)) (Ev.startTask 1 "u" "hello world" 3)

/-- The single-task registry used by the C6 witness. -/
def c6Task : TabState :=
  { status := "in-progress", downloadId := none, details := "", progress := 0,
    url := "", title := "hello world", galleryId := none, hadProgressBar := false,
    startTime := 0 }

/-- The C6 witness state: one unbound in-progress task and download 5
parked with no filename. -/
def c6Sys : Sys := ⟨[(1, c6Task)], [(5, ⟨"", "u"⟩)]⟩

/-- The C2 witness task bound to download 5 at progress 95. -/
def c2Task : TabState :=
  { status := "in-progress", downloadId := some 5, details := "95%", progress := 95,
    url := "", title := "t", galleryId := none, hadProgressBar := true, startTime := 0 }

/-- The C2 witness unbound task at progress 95. -/
def c2bTask : TabState :=
  { status := "in-progress", downloadId := none, details := "95%", progress := 95,
    url := "", title := "t", galleryId := none, hadProgressBar := true, startTime := 0 }


/-- A small reachable state (one running task) used to witness the
binding-invariant claim. -/
def c1Sys : Sys := stepF ⟨[], []⟩ (Ev.startTask 1 "u" "t" 5)

/-! ## General lemmas about the JS `Map` embedding -/

theorem mapGet_cons {α : Type} (p : Nat × α) (rest : List (Nat × α)) (k : Nat) :
    mapGet (p :: rest) k = if p.1 = k then some p.2 else mapGet rest k := by
  by_cases hp : p.1 = k <;> simp [mapGet, List.find?_cons, hp]

theorem mapGet_setMap_ne {α : Type} (m : List (Nat × α)) (k j : Nat) (v : α) (hjk : j ≠ k) :
    mapGet (m.map (fun p => if p.1 == k then (k, v) else p)) j = mapGet m j := by
  induction m with
  | nil => simp [mapGet]
  | cons p rest ih =>
      by_cases hp : p.1 = k
      · have hhead : (if (p.1 == k) = true then (k, v) else p) = (k, v) := by simp [hp]
        rw [List.map_cons, hhead, mapGet_cons, mapGet_cons]
        rw [if_neg (show ¬(k, v).1 = j from fun h => hjk h.symm),
          if_neg (show ¬p.1 = j from fun h => hjk (hp ▸ h).symm)]
        exact ih
      · have hhead : (if (p.1 == k) = true then (k, v) else p) = p := by simp [hp]
        rw [List.map_cons, hhead, mapGet_cons, mapGet_cons]
        by_cases hpj : p.1 = j
        · rw [if_pos hpj, if_pos hpj]
        · rw [if_neg hpj, if_neg hpj]
          exact ih

theorem mapGet_setMap_self {α : Type} (m : List (Nat × α)) (k : Nat) (v : α) :
    mapGet (m.map (fun p => if p.1 == k then (k, v) else p)) k =
      (mapGet m k).map (fun _ => v) := by
  induction m with
  | nil => simp [mapGet]
  | cons p rest ih =>
      by_cases hp : p.1 = k
      · have hhead : (if (p.1 == k) = true then (k, v) else p) = (k, v) := by simp [hp]
        rw [List.map_cons, hhead, mapGet_cons, mapGet_cons, if_pos rfl, if_pos hp]
        rfl
      · have hhead : (if (p.1 == k) = true then (k, v) else p) = p := by simp [hp]
        rw [List.map_cons, hhead, mapGet_cons, mapGet_cons, if_neg hp, if_neg hp]
        exact ih

theorem anyKey_iff {α : Type} (m : List (Nat × α)) (k : Nat) :
    (m.any fun p => p.1 == k) = true ↔ ∃ v, mapGet m k = some v := by
  induction m with
  | nil => simp [mapGet]
  | cons p rest ih =>
      by_cases hp : p.1 = k
      · simp [List.any_cons, hp, mapGet_cons]
      · simp [List.any_cons, hp, mapGet_cons, ih]

theorem mapGet_append_single_self {α : Type} (m : List (Nat × α)) (k : Nat) (v : α)
    (h : mapGet m k = none) : mapGet (m ++ [(k, v)]) k = some v := by
  induction m with
  | nil => simp [mapGet, List.find?_cons]
  | cons p rest ih =>
      rw [mapGet_cons] at h
      rcases Decidable.em (p.1 = k) with hp | hp
      · simp [hp] at h
      · rw [List.cons_append, mapGet_cons, if_neg hp]
        rw [if_neg hp] at h
        exact ih h

theorem mapGet_append_single_ne {α : Type} (m : List (Nat × α)) (k j : Nat) (v : α)
    (hjk : j ≠ k) : mapGet (m ++ [(k, v)]) j = mapGet m j := by
  induction m with
  | nil =>
      rw [List.nil_append, mapGet_cons,
        if_neg (show ¬(k, v).1 = j from fun h => hjk h.symm)]
  | cons p rest ih =>
      rw [List.cons_append, mapGet_cons, mapGet_cons]
      by_cases hp : p.1 = j
      · simp [hp]
      · rw [if_neg hp, if_neg hp]
        exact ih

theorem mapGet_mapSet_self {α : Type} (m : List (Nat × α)) (k : Nat) (v : α) :
    mapGet (mapSet m k v) k = some v := by
  unfold mapSet
  split
  · rename_i h
    rcases (anyKey_iff m k).mp h with ⟨w, hw⟩
    rw [mapGet_setMap_self, hw]
    rfl
  · rename_i h
    refine mapGet_append_single_self m k v ?_
    rcases hx : mapGet m k with _ | w
    · rfl
    · exact absurd ((anyKey_iff m k).mpr ⟨w, hx⟩) h

theorem mapGet_mapSet_ne {α : Type} (m : List (Nat × α)) (k j : Nat) (v : α) (hjk : j ≠ k) :
    mapGet (mapSet m k v) j = mapGet m j := by
  unfold mapSet
  split
  · exact mapGet_setMap_ne m k j v hjk
  · exact mapGet_append_single_ne m k j v hjk

theorem mem_mapSet_elim {α : Type} {m : List (Nat × α)} {k j : Nat} {v x : α}
    (h : (j, v) ∈ mapSet m k x) : (j = k ∧ v = x) ∨ ((j, v) ∈ m ∧ j ≠ k) := by
  unfold mapSet at h
  split at h
  · rcases List.mem_map.mp h with ⟨p, hp, hpe⟩
    by_cases hk : p.1 = k
    · simp only [hk, if_pos rfl, beq_self_eq_true] at hpe
      rw [if_pos (by simp)] at hpe
      cases hpe
      exact Or.inl ⟨rfl, rfl⟩
    · rw [if_neg (by simpa using hk)] at hpe
      subst hpe
      exact Or.inr ⟨hp, hk⟩
  · rename_i hany
    rcases List.mem_append.mp h with h2 | h2
    · exact Or.inr ⟨h2, fun hjk =>
        hany (List.any_eq_true.mpr ⟨(j, v), h2, by simp [hjk]⟩)⟩
    · simp at h2
      exact Or.inl ⟨h2.1, h2.2⟩

theorem mapGet_mapDelete_self {α : Type} (m : List (Nat × α)) (k : Nat) :
    mapGet (mapDelete m k) k = none := by
  induction m with
  | nil => simp [mapDelete, mapGet]
  | cons p rest ih =>
      by_cases hp : p.1 = k
      · have : mapDelete (p :: rest) k = mapDelete rest k := by
          simp [mapDelete, List.filter_cons, hp]
        rw [this]
        exact ih
      · have : mapDelete (p :: rest) k = p :: mapDelete rest k := by
          simp [mapDelete, List.filter_cons, hp]
        rw [this, mapGet_cons, if_neg hp]
        exact ih

theorem mem_mapDelete_elim {α : Type} {m : List (Nat × α)} {k j : Nat} {v : α}
    (h : (j, v) ∈ mapDelete m k) : (j, v) ∈ m ∧ j ≠ k := by
  unfold mapDelete at h
  have := List.mem_filter.mp h
  exact ⟨this.1, by simpa using this.2⟩

theorem keysNodup_mapSet {α : Type} {m : List (Nat × α)} (h : KeysNodup m) (k : Nat) (v : α) :
    KeysNodup (mapSet m k v) := by
  unfold mapSet
  split
  · have : (m.map (fun p => if p.1 == k then (k, v) else p)).map Prod.fst = m.map Prod.fst := by
      rw [List.map_map]
      apply List.map_congr_left
      intro p _
      by_cases hp : p.1 = k <;> simp [hp]
    unfold KeysNodup
    rw [this]
    exact h
  · rename_i hany
    unfold KeysNodup at h ⊢
    rw [List.map_append]
    simp only [List.map_cons, List.map_nil]
    refine List.Nodup.append h (List.nodup_singleton k) ?_
    intro a ha hb
    simp at hb
    subst hb
    rcases List.mem_map.mp ha with ⟨p, hp, hpe⟩
    exact hany (List.any_eq_true.mpr ⟨p, hp, by simp [hpe]⟩)

theorem keysNodup_mapDelete {α : Type} {m : List (Nat × α)} (h : KeysNodup m) (k : Nat) :
    KeysNodup (mapDelete m k) := by
  unfold KeysNodup at h ⊢
  unfold mapDelete
  exact (List.Sublist.map Prod.fst (List.filter_sublist m)).nodup h

theorem keysNodup_filter {α : Type} {m : List (Nat × α)} (h : KeysNodup m) (p : Nat × α → Bool) :
    KeysNodup (m.filter p) := by
  unfold KeysNodup at h ⊢
  exact (List.Sublist.map Prod.fst (List.filter_sublist m)).nodup h

theorem mapGet_eq_some_of_mem {α : Type} {m : List (Nat × α)} {k : Nat} {v : α}
    (hn : KeysNodup m) (h : (k, v) ∈ m) : mapGet m k = some v := by
  induction m with
  | nil => simp at h
  | cons p rest ih =>
      unfold KeysNodup at hn
      simp only [List.map_cons, List.nodup_cons] at hn
      rcases List.mem_cons.mp h with h1 | h1
      · subst h1
        rw [mapGet_cons, if_pos rfl]
      · have hpk : p.1 ≠ k := by
          intro he
          exact hn.1 (he ▸ List.mem_map.mpr ⟨(k, v), h1, rfl⟩)
        rw [mapGet_cons, if_neg hpk]
        exact ih hn.2 h1

theorem mem_of_mapGet_eq_some {α : Type} {m : List (Nat × α)} {k : Nat} {v : α}
    (h : mapGet m k = some v) : (k, v) ∈ m := by
  induction m with
  | nil => simp [mapGet] at h
  | cons p rest ih =>
      obtain ⟨p1, p2⟩ := p
      rw [mapGet_cons] at h
      by_cases hp : p1 = k
      · rw [if_pos hp] at h
        cases h
        subst hp
        exact List.mem_cons_self _ _
      · rw [if_neg hp] at h
        exact List.mem_cons_of_mem _ (ih h)

/-! ## Claims about the similarity scorer -/

/-- C3: episode-mismatch penalty with short-circuit.  For every candidate
name and task label where no higher-priority rule fired (identifier
containment, exact equality, normalized equality), both sides yield at
least one ordinal token, and the ordinal sets are disjoint, the score is
the penalty value 10 — regardless of what the later containment, prefix,
or bigram rules would have said, since the function returns here. -/
theorem C3_episode_mismatch_penalty (fn tt : String) (gid : Option String)
    (h1 : galleryIdHit gid fn (cleanFilename fn) = false)
    (h2 : cleanFilename fn ≠ cleanTitle tt)
    (h3 : normalizeForComparison (cleanFilename fn) ≠ normalizeForComparison (cleanTitle tt))
    (h4 : (extractEpisodeNumbers (cleanFilename fn)).isEmpty = false)
    (h5 : (extractEpisodeNumbers (cleanTitle tt)).isEmpty = false)
    (h6 : hasCommonNum (extractEpisodeNumbers (cleanFilename fn))
        (extractEpisodeNumbers (cleanTitle tt)) = false) :
    calculateMatchScore fn tt gid = JSNum.int 10 := by
  simp [calculateMatchScore, h1, h2, h3, h4, h5, h6]

/-- C3 witness: label `"Series X Chapter 2"` against candidate
`"Series X Chapter 7.zip"` scores 10 ≤ 15. -/
theorem C3_episode_mismatch_penalty_witness :
    calculateMatchScore "Series X Chapter 7.zip" "Series X Chapter 2" none = JSNum.int 10 ∧
      (10 : Int) ≤ 15 :=
  ⟨C3_episode_mismatch_penalty _ _ _ (by decide) (by decide) (by decide) (by decide)
    (by decide) (by decide), by norm_num⟩

/-- C4: identifier short-circuit.  A non-empty task identifier occurring
literally in the candidate name (or its cleaned form) forces score 100,
regardless of the label text. -/
theorem C4_identifier_shortcircuit (fn tt g : String) (hg : g ≠ "")
    (hin : jsIncludes fn g = true ∨ jsIncludes (cleanFilename fn) g = true) :
    calculateMatchScore fn tt (some g) = JSNum.int 100 := by
  have hhit : galleryIdHit (some g) fn (cleanFilename fn) = true := by
    rcases hin with h | h <;> simp [galleryIdHit, hg, h]
  simp [calculateMatchScore, hhit]

/-- C4 witness: identifier `"123456"`, candidate `"Foo_123456.zip"`,
arbitrary label. -/
theorem C4_identifier_shortcircuit_witness :
    calculateMatchScore "Foo_123456.zip" "anything at all" (some "123456") = JSNum.int 100 :=
  C4_identifier_shortcircuit _ _ _ (by decide) (Or.inl (by decide))

/-- C8: the scorer is not an integer in 0..100 on every input.  The bigram
fallback counts multiplicity on one side only, so `"aaaaaaa"` against
`"aab"` yields similarity 12/8 = 1.5 and score 105 > 100; and two
single-character inputs reach the fallback with no bigrams at all, so the
JS division is 0/0 = NaN. -/
theorem C8_score_out_of_range :
    calculateMatchScore "aaaaaaa" "aab" none = JSNum.int 105 ∧
      ¬((105 : Int) ≤ 100) ∧
      calculateMatchScore "a" "b" none = JSNum.nan :=
  ⟨by decide, by norm_num, by decide⟩

/-! ## Character survival through normalization (used for the empty-label
claim) -/

theorem mem_dropWhile_of_not {p : Char → Bool} {c : Char} {l : List Char}
    (hc : p c = false) (h : c ∈ l) : c ∈ l.dropWhile p := by
  induction l with
  | nil => simp at h
  | cons a rest ih =>
      by_cases ha : p a = true
      · rw [List.dropWhile_cons_of_pos ha]
        rcases List.mem_cons.mp h with h1 | h1
        · subst h1
          rw [hc] at ha
          cases ha
        · exact ih h1
      · rw [List.dropWhile_cons_of_neg (by simpa using ha)]
        exact h

theorem mem_collapseWsL {c : Char} (hc : jsWs c = false) :
    ∀ {l : List Char}, c ∈ l → c ∈ collapseWsL l := by
  intro l
  induction l with
  | nil => intro h; simp at h
  | cons a rest ih =>
      intro h
      cases rest with
      | nil =>
          simp only [List.mem_singleton] at h
          subst h
          simp [collapseWsL, hc]
      | cons b rest2 =>
          by_cases hab : jsWs a && jsWs b
          · rw [show collapseWsL (a :: b :: rest2) = collapseWsL (b :: rest2) from by
              simp [collapseWsL, hab]]
            rcases List.mem_cons.mp h with h1 | h1
            · subst h1
              rw [Bool.and_eq_true] at hab
              rw [hab.1] at hc
              cases hc
            · exact ih h1
          · rw [show collapseWsL (a :: b :: rest2) =
                (if jsWs a then ' ' else a) :: collapseWsL (b :: rest2) from by
              simp only [collapseWsL]
              rw [if_neg (by simpa using hab)]]
            rcases List.mem_cons.mp h with h1 | h1
            · subst h1
              rw [hc]
              exact List.mem_cons_self _ _
            · exact List.mem_cons_of_mem _ (ih h1)

theorem mem_trimWs {c : Char} {l : List Char} (hc : jsWs c = false) (h : c ∈ l) :
    c ∈ trimWs l := by
  unfold trimWs
  rw [List.mem_reverse]
  refine mem_dropWhile_of_not hc ?_
  rw [List.mem_reverse]
  exact mem_dropWhile_of_not hc h

/-- If normalization wipes a string to `""`, every character's lowercase
form was decorative, dot-like, or whitespace. -/
theorem norm_vanish {s : String} (h : normalizeForComparison s = "") {c : Char}
    (hc : c ∈ s.toList) :
    stripSym c.toLower = true ∨ dotSym c.toLower = true ∨ jsWs c.toLower = true := by
  by_contra hall
  push_neg at hall
  obtain ⟨h1, h2, h3⟩ := hall
  simp only [Bool.not_eq_true] at h1 h2 h3
  have hs : s ≠ "" := by
    intro he
    subst he
    simp at hc
  unfold normalizeForComparison at h
  rw [if_neg hs] at h
  have hlist : trimWs (collapseWsL
      (((s.toList.map Char.toLower).filter (fun c => !stripSym c)).map
        (fun c => if dotSym c then ' ' else c))) = [] := by
    have := congrArg String.data h
    simpa using this
  have m1 : c.toLower ∈ s.toList.map Char.toLower := List.mem_map_of_mem _ hc
  have m2 : c.toLower ∈ (s.toList.map Char.toLower).filter (fun c => !stripSym c) :=
    List.mem_filter.mpr ⟨m1, by simp [h1]⟩
  have m3 : c.toLower ∈ ((s.toList.map Char.toLower).filter (fun c => !stripSym c)).map
      (fun c => if dotSym c then ' ' else c) := by
    have hmap := List.mem_map_of_mem (fun c => if dotSym c then ' ' else c) m2
    have hbeta : (fun c => if dotSym c = true then ' ' else c) c.toLower = c.toLower := by
      simp [h2]
    rwa [hbeta] at hmap
  have m4 := mem_trimWs h3 (mem_collapseWsL h3 m3)
  rw [hlist] at m4
  simp at m4

theorem digit_toLower {c : Char} (h : isDigit c = true) : c.toLower = c := by
  simp only [isDigit, Bool.and_eq_true, decide_eq_true_eq] at h
  unfold Char.toLower
  rw [if_neg (by omega)]

theorem digit_not_strip {c : Char} (h : isDigit c = true) : stripSym c = false := by
  by_contra hcon
  rw [Bool.not_eq_false] at hcon
  have hmem : c ∈ stripChars := by simpa [stripSym] using hcon
  have hall : stripChars.all (fun x => !isDigit x) = true := by decide
  have := List.all_eq_true.mp hall c hmem
  rw [h] at this
  cases this

theorem digit_not_dot {c : Char} (h : isDigit c = true) : dotSym c = false := by
  by_contra hcon
  rw [Bool.not_eq_false] at hcon
  have hmem : c ∈ dotChars := by simpa [dotSym] using hcon
  have hall : dotChars.all (fun x => !isDigit x) = true := by decide
  have := List.all_eq_true.mp hall c hmem
  rw [h] at this
  cases this

theorem ws_toNat_le {c : Char} (h : jsWs c = true) : c.toNat ≤ 32 := by
  simp only [jsWs, Bool.or_eq_true, decide_eq_true_eq] at h
  rcases h with ((((rfl | rfl) | rfl) | rfl) | rfl) | rfl <;> decide

theorem digit_not_ws {c : Char} (h : isDigit c = true) : jsWs c = false := by
  simp only [isDigit, Bool.and_eq_true, decide_eq_true_eq] at h
  rcases hcon : jsWs c with _ | _
  · rfl
  · have := ws_toNat_le hcon
    omega

/-- If normalization wipes a string to `""`, the string has no ASCII digit. -/
theorem norm_empty_no_digit {s : String} (h : normalizeForComparison s = "") :
    ∀ c ∈ s.toList, isDigit c = false := by
  intro c hc
  by_contra hd
  rw [Bool.not_eq_false] at hd
  rcases norm_vanish h hc with h1 | h1 | h1 <;>
    rw [digit_toLower hd] at h1
  · rw [digit_not_strip hd] at h1; cases h1
  · rw [digit_not_dot hd] at h1; cases h1
  · rw [digit_not_ws hd] at h1; cases h1

/-- If normalization wipes a string to `""`, the string has no `第`. -/
theorem norm_empty_no_dai {s : String} (h : normalizeForComparison s = "") :
    '第' ∉ s.toList := by
  intro hc
  rcases norm_vanish h hc with h1 | h1 | h1 <;> revert h1 <;> decide

/-! ## The scanners find nothing without digits / `第` -/

theorem takeWhile_nil_of_none {p : Char → Bool} {l : List Char}
    (h : ∀ c ∈ l, p c = false) : l.takeWhile p = [] := by
  cases l with
  | nil => rfl
  | cons a rest =>
      rw [List.takeWhile_cons, h a (List.mem_cons_self _ _)]
      simp

theorem scanJapGo_nil {l : List Char} (h : '第' ∉ l) : ∀ fuel, scanJapGo fuel l = [] := by
  induction l with
  | nil => intro fuel; cases fuel <;> rfl
  | cons c rest ih =>
      intro fuel
      cases fuel with
      | zero => rfl
      | succ f =>
          have hc : c ≠ '第' := fun he => h (he ▸ List.mem_cons_self _ _)
          have hr : '第' ∉ rest := fun he => h (List.mem_cons_of_mem _ he)
          simp only [scanJapGo, if_neg hc]
          exact ih hr f

theorem matchCaselessRest_mem {kw : List Char} :
    ∀ {l r : List Char}, tryAlt.matchCaselessRest l kw = some r → ∀ c ∈ r, c ∈ l := by
  induction kw with
  | nil =>
      intro l r h c hc
      simp only [tryAlt.matchCaselessRest] at h
      cases h
      exact hc
  | cons p ps ih =>
      intro l r h c hc
      cases l with
      | nil => simp [tryAlt.matchCaselessRest] at h
      | cons a m =>
          simp only [tryAlt.matchCaselessRest] at h
          split at h
          · exact List.mem_cons_of_mem _ (ih h c hc)
          · cases h

theorem digitsGrab_none {r : List Char} (h : ∀ c ∈ r, isDigit c = false) :
    digitsGrab r = none := by
  have hsub : ∀ c ∈ r.dropWhile jsWs, isDigit c = false :=
    fun c hc => h c ((List.dropWhile_sublist _).mem hc)
  simp only [digitsGrab]
  rw [takeWhile_nil_of_none hsub]
  rfl

theorem dotFallback_none {r : List Char} (h : ∀ c ∈ r, isDigit c = false) :
    dotFallback r = none := by
  unfold dotFallback
  split
  · rename_i r1
    have h1 : ∀ c ∈ r1, isDigit c = false :=
      fun c hc => h c (List.mem_cons_of_mem _ hc)
    rw [digitsGrab_none h1]
    exact digitsGrab_none h
  · exact digitsGrab_none h

theorem tryAlt_none {l kw : List Char} {b : Bool} (h : ∀ c ∈ l, isDigit c = false) :
    tryAlt l kw b = none := by
  unfold tryAlt
  cases hm : tryAlt.matchCaselessRest l kw with
  | none => rfl
  | some r =>
      have hr : ∀ c ∈ r, isDigit c = false :=
        fun c hc => h c (matchCaselessRest_mem hm c hc)
      cases b with
      | false => exact digitsGrab_none hr
      | true => exact dotFallback_none hr

theorem tryEnglish_none {l : List Char} (h : ∀ c ∈ l, isDigit c = false) :
    tryEnglish l = none := by
  unfold tryEnglish
  rw [tryAlt_none h, tryAlt_none h, tryAlt_none h, tryAlt_none h, tryAlt_none h,
    tryAlt_none h]
  rfl

theorem scanEngGo_nil {l : List Char} (h : ∀ c ∈ l, isDigit c = false) :
    ∀ fuel, scanEngGo fuel l = [] := by
  induction l with
  | nil => intro fuel; cases fuel <;> rfl
  | cons c rest ih =>
      intro fuel
      cases fuel with
      | zero => rfl
      | succ f =>
          have hrest : ∀ x ∈ rest, isDigit x = false :=
            fun x hx => h x (List.mem_cons_of_mem _ hx)
          simp only [scanEngGo, tryEnglish_none h]
          exact ih hrest f

theorem trailingNum_nil {l : List Char} (h : ∀ c ∈ l, isDigit c = false) :
    trailingNum l = [] := by
  have hrev : ∀ c ∈ l.reverse.dropWhile jsWs, isDigit c = false :=
    fun c hc => h c (List.mem_reverse.mp ((List.dropWhile_sublist _).mem hc))
  simp only [trailingNum]
  rw [takeWhile_nil_of_none hrev]
  rfl

theorem scanBrGo_nil {l : List Char} (h : ∀ c ∈ l, isDigit c = false) :
    ∀ fuel, scanBrGo fuel l = [] := by
  induction l with
  | nil => intro fuel; cases fuel <;> rfl
  | cons c rest ih =>
      intro fuel
      cases fuel with
      | zero => rfl
      | succ f =>
          have hrest : ∀ x ∈ rest, isDigit x = false :=
            fun x hx => h x (List.mem_cons_of_mem _ hx)
          by_cases hc : openBr c
          · simp only [scanBrGo, hc, if_true]
            rw [takeWhile_nil_of_none hrest]
            cases hd : rest.dropWhile isDigit with
            | nil => exact ih hrest f
            | cons c2 rest2 =>
                simp only [List.isEmpty_nil, Bool.not_true, Bool.false_and,
                  Bool.false_eq_true, if_false]
                exact ih hrest f
          · simp only [scanBrGo, hc, if_false]
            exact ih hrest f

/-- If a string has no ASCII digit and no `第`, episode extraction finds
nothing. -/
theorem extractEpisodeNumbers_nil {s : String}
    (hd : ∀ c ∈ s.toList, isDigit c = false) (hj : '第' ∉ s.toList) :
    extractEpisodeNumbers s = [] := by
  by_cases hs : s = ""
  · simp [extractEpisodeNumbers, hs]
  · simp only [extractEpisodeNumbers, if_neg hs]
    rw [scanJapGo_nil hj, scanEngGo_nil hd, trailingNum_nil hd, scanBrGo_nil hd]
    rfl

theorem jsIncludes_empty (s : String) : jsIncludes s "" = true := by
  show containsList "".toList s.toList = true
  cases hs : s.toList with
  | nil => rfl
  | cons c rest => rfl

/-- C10 (implicit): a task whose label is absent or normalizes to the empty
string scores at least 85 (rules 1, 2, 3 or the containment rule 5, since
the ordinal gate cannot fire without digits or `第` in the cleaned label
and every string contains the empty string), hence clears the threshold 30
and can be bound: a matching attempt against a registry holding just such
an unbound in-progress task binds it. -/
theorem C10_empty_label_high_score (fn tt : String) (gid : Option String)
    (h : normalizeForComparison (cleanTitle tt) = "") :
    ∃ n : Int, calculateMatchScore fn tt gid = JSNum.int n ∧ 85 ≤ n ∧ n ≤ 100 ∧ 30 ≤ n ∧
      ∀ i d : Nat, ∀ det prog url hpb t0,
        (matchDownloadToTab d fn
          [(i, { status := "in-progress", downloadId := none, details := det,
                 progress := prog, url := url, title := tt, galleryId := gid,
                 hadProgressBar := hpb, startTime := t0 })]).1 = true := by
  have htn : extractEpisodeNumbers (cleanTitle tt) = [] :=
    extractEpisodeNumbers_nil (norm_empty_no_digit h) (norm_empty_no_dai h)
  have hscore : ∃ n : Int, calculateMatchScore fn tt gid = JSNum.int n ∧
      85 ≤ n ∧ n ≤ 100 := by
    by_cases c1 : galleryIdHit gid fn (cleanFilename fn) = true
    · exact ⟨100, by simp [calculateMatchScore, c1], by norm_num, by norm_num⟩
    · by_cases c2 : cleanFilename fn = cleanTitle tt
      · exact ⟨100, by simp [calculateMatchScore, c1, c2], by norm_num, by norm_num⟩
      · by_cases c3 : normalizeForComparison (cleanFilename fn) =
            normalizeForComparison (cleanTitle tt)
        · exact ⟨98, by simp [calculateMatchScore, c1, c2, c3], by norm_num, by norm_num⟩
        · refine ⟨85, ?_, by norm_num, by norm_num⟩
          have c3' : normalizeForComparison (cleanFilename fn) ≠ "" :=
            fun he => c3 (by rw [he, h])
          simp [calculateMatchScore, c1, c2, c3, c3', htn, h, jsIncludes_empty]
  obtain ⟨n, hs, h85, h100⟩ := hscore
  refine ⟨n, hs, h85, h100, by omega, ?_⟩
  intro i d det prog url hpb t0
  have hcand : isCandidate
      { status := "in-progress", downloadId := none, details := det,
        progress := prog, url := url, title := tt, galleryId := gid,
        hadProgressBar := hpb, startTime := t0 } = true := by
    simp [isCandidate, jsTruthyId]
  have hsc : scoreOf fn
      { status := "in-progress", downloadId := none, details := det,
        progress := prog, url := url, title := tt, galleryId := gid,
        hadProgressBar := hpb, startTime := t0 } = JSNum.int n := hs
  have h0 : (0:Int) < n := by omega
  have h30 : (30:Int) ≤ n := by omega
  simp [matchDownloadToTab, bestOf, hcand, hsc, h0, h30]

/-- C10 witness: a task with label `""` scores at least 85 against the
candidate `"whatever.zip"` and a matching attempt binds it. -/
theorem C10_empty_label_high_score_witness :
    ∃ n : Int, calculateMatchScore "whatever.zip" "" none = JSNum.int n ∧
      85 ≤ n ∧ n ≤ 100 ∧ 30 ≤ n ∧
      ∀ i d : Nat, ∀ det prog url hpb t0,
        (matchDownloadToTab d "whatever.zip"
          [(i, { status := "in-progress", downloadId := none, details := det,
                 progress := prog, url := url, title := "", galleryId := none,
                 hadProgressBar := hpb, startTime := t0 })]).1 = true :=
  C10_empty_label_high_score "whatever.zip" "" none (by decide)

/-! ## Characterizing the matcher's best-candidate fold -/

theorem bestOf_mono (fn : String) :
    ∀ (l : List (Nat × TabState)) (acc : Option Nat × Int), acc.2 ≤ (bestOf fn l acc).2 := by
  intro l
  induction l with
  | nil => intro acc; exact le_refl _
  | cons p rest ih =>
      intro acc
      obtain ⟨i, st⟩ := p
      by_cases hc : isCandidate st = true
      · cases hs : scoreOf fn st with
        | nan =>
            have he : bestOf fn ((i, st) :: rest) acc = bestOf fn rest acc := by
              simp only [bestOf, if_pos hc, hs]
            rw [he]
            exact ih acc
        | int n =>
            by_cases hlt : acc.2 < n
            · have he : bestOf fn ((i, st) :: rest) acc = bestOf fn rest (some i, n) := by
                simp only [bestOf, if_pos hc, hs, if_pos hlt]
              rw [he]
              exact le_trans (le_of_lt hlt) (ih (some i, n))
            · have he : bestOf fn ((i, st) :: rest) acc = bestOf fn rest acc := by
                simp only [bestOf, if_pos hc, hs, if_neg hlt]
              rw [he]
              exact ih acc
      · have he : bestOf fn ((i, st) :: rest) acc = bestOf fn rest acc := by
          simp only [bestOf, if_neg hc]
        rw [he]
        exact ih acc

theorem bestOf_ub (fn : String) :
    ∀ (l : List (Nat × TabState)) (acc : Option Nat × Int) (i : Nat) (st : TabState),
      (i, st) ∈ l → isCandidate st = true →
      ∀ n : Int, scoreOf fn st = JSNum.int n → n ≤ (bestOf fn l acc).2 := by
  intro l
  induction l with
  | nil => intro acc i st h; simp at h
  | cons p rest ih =>
      intro acc i st hmem hcand n hsc
      obtain ⟨j0, st0⟩ := p
      rcases List.mem_cons.mp hmem with he | hm
      · rw [Prod.mk.injEq] at he
        obtain ⟨rfl, rfl⟩ := he
        have he2 : bestOf fn ((i, st) :: rest) acc =
            (if acc.2 < n then bestOf fn rest (some i, n) else bestOf fn rest acc) := by
          simp only [bestOf, if_pos hcand, hsc]
        rw [he2]
        by_cases hlt : acc.2 < n
        · rw [if_pos hlt]
          exact le_trans (le_refl n) (bestOf_mono fn rest (some i, n))
        · rw [if_neg hlt]
          exact le_trans (le_of_not_lt hlt) (bestOf_mono fn rest acc)
      · by_cases hc0 : isCandidate st0 = true
        · cases hs0 : scoreOf fn st0 with
          | nan =>
              have he2 : bestOf fn ((j0, st0) :: rest) acc = bestOf fn rest acc := by
                simp only [bestOf, if_pos hc0, hs0]
              rw [he2]
              exact ih acc i st hm hcand n hsc
          | int n0 =>
              by_cases hlt : acc.2 < n0
              · have he2 : bestOf fn ((j0, st0) :: rest) acc =
                    bestOf fn rest (some j0, n0) := by
                  simp only [bestOf, if_pos hc0, hs0, if_pos hlt]
                rw [he2]
                exact ih (some j0, n0) i st hm hcand n hsc
              · have he2 : bestOf fn ((j0, st0) :: rest) acc = bestOf fn rest acc := by
                  simp only [bestOf, if_pos hc0, hs0, if_neg hlt]
                rw [he2]
                exact ih acc i st hm hcand n hsc
        · have he2 : bestOf fn ((j0, st0) :: rest) acc = bestOf fn rest acc := by
            simp only [bestOf, if_neg hc0]
          rw [he2]
          exact ih acc i st hm hcand n hsc

/-- The fold either returns the accumulator untouched or its result is
attained by the first maximal-scoring candidate (strict improvement is
required to replace the incumbent, so earlier candidates all score
strictly below it). -/
theorem bestOf_first (fn : String) :
    ∀ (l : List (Nat × TabState)) (acc r : Option Nat × Int), bestOf fn l acc = r →
      r = acc ∨
      ∃ l1 i st l2, l = l1 ++ (i, st) :: l2 ∧ isCandidate st = true ∧
        scoreOf fn st = JSNum.int r.2 ∧ acc.2 < r.2 ∧ r.1 = some i ∧
        ∀ j st2, (j, st2) ∈ l1 → isCandidate st2 = true →
          ∀ m : Int, scoreOf fn st2 = JSNum.int m → m < r.2 := by
  intro l
  induction l with
  | nil =>
      intro acc r h
      left
      exact h.symm
  | cons p rest ih =>
      intro acc r h
      obtain ⟨j0, st0⟩ := p
      by_cases hc0 : isCandidate st0 = true
      · cases hs0 : scoreOf fn st0 with
        | nan =>
            have h2 : bestOf fn rest acc = r := by
              rw [← h]
              simp only [bestOf, if_pos hc0, hs0]
            rcases ih acc r h2 with h3 | ⟨l1, i, st, l2, heq, hcand, hsc, hmono, hfst, hearly⟩
            · exact Or.inl h3
            · refine Or.inr ⟨(j0, st0) :: l1, i, st, l2, by rw [heq, List.cons_append],
                hcand, hsc, hmono, hfst, ?_⟩
              intro j st2 hj hcand2 m hm
              rcases List.mem_cons.mp hj with he | hin
              · rw [Prod.mk.injEq] at he
                obtain ⟨rfl, rfl⟩ := he
                rw [hs0] at hm
                cases hm
              · exact hearly j st2 hin hcand2 m hm
        | int n0 =>
            by_cases hlt : acc.2 < n0
            · have h2 : bestOf fn rest (some j0, n0) = r := by
                rw [← h]
                simp only [bestOf, if_pos hc0, hs0, if_pos hlt]
              rcases ih _ r h2 with h3 | ⟨l1, i, st, l2, heq, hcand, hsc, hmono, hfst, hearly⟩
              · subst h3
                refine Or.inr ⟨[], j0, st0, rest, rfl, hc0, hs0, hlt, rfl, ?_⟩
                intro j st2 hj
                simp at hj
              · refine Or.inr ⟨(j0, st0) :: l1, i, st, l2, by rw [heq, List.cons_append],
                  hcand, hsc, lt_trans hlt hmono, hfst, ?_⟩
                intro j st2 hj hcand2 m hm
                rcases List.mem_cons.mp hj with he | hin
                · rw [Prod.mk.injEq] at he
                  obtain ⟨rfl, rfl⟩ := he
                  rw [hs0] at hm
                  cases hm
                  exact hmono
                · exact hearly j st2 hin hcand2 m hm
            · have h2 : bestOf fn rest acc = r := by
                rw [← h]
                simp only [bestOf, if_pos hc0, hs0, if_neg hlt]
              rcases ih acc r h2 with h3 | ⟨l1, i, st, l2, heq, hcand, hsc, hmono, hfst, hearly⟩
              · exact Or.inl h3
              · refine Or.inr ⟨(j0, st0) :: l1, i, st, l2, by rw [heq, List.cons_append],
                  hcand, hsc, hmono, hfst, ?_⟩
                intro j st2 hj hcand2 m hm
                rcases List.mem_cons.mp hj with he | hin
                · rw [Prod.mk.injEq] at he
                  obtain ⟨rfl, rfl⟩ := he
                  rw [hs0] at hm
                  cases hm
                  exact lt_of_le_of_lt (le_of_not_lt hlt) hmono
                · exact hearly j st2 hin hcand2 m hm
      · have h2 : bestOf fn rest acc = r := by
          rw [← h]
          simp only [bestOf, if_neg hc0]
        rcases ih acc r h2 with h3 | ⟨l1, i, st, l2, heq, hcand, hsc, hmono, hfst, hearly⟩
        · exact Or.inl h3
        · refine Or.inr ⟨(j0, st0) :: l1, i, st, l2, by rw [heq, List.cons_append],
            hcand, hsc, hmono, hfst, ?_⟩
          intro j st2 hj hcand2 m hm
          rcases List.mem_cons.mp hj with he | hin
          · rw [Prod.mk.injEq] at he
            obtain ⟨rfl, rfl⟩ := he
            rw [hcand2] at hc0
            cases hc0 rfl
          · exact hearly j st2 hin hcand2 m hm

/-- C5: threshold boundary.  If some unbound in-progress task reaches the
acceptance threshold 30, the matcher returns `true` and rewrites exactly
the maximal-scoring task's `downloadId`; if every candidate scores
strictly below 30, it returns `false` and the registry is unchanged. -/
theorem C5_threshold_boundary (d : Nat) (fn : String) (tabs : List (Nat × TabState)) :
    ((∃ p ∈ tabs, isCandidate p.2 = true ∧
        ∃ n : Int, scoreOf fn p.2 = JSNum.int n ∧ 30 ≤ n) →
      (matchDownloadToTab d fn tabs).1 = true ∧
      ∃ tid st n, (tid, st) ∈ tabs ∧ isCandidate st = true ∧
        scoreOf fn st = JSNum.int n ∧ 30 ≤ n ∧
        (∀ q ∈ tabs, isCandidate q.2 = true →
          ∀ m : Int, scoreOf fn q.2 = JSNum.int m → m ≤ n) ∧
        (matchDownloadToTab d fn tabs).2 = tabs.map (updOne tid d)) ∧
    ((∀ p ∈ tabs, isCandidate p.2 = true →
        ∀ n : Int, scoreOf fn p.2 = JSNum.int n → n < 30) →
      (matchDownloadToTab d fn tabs).1 = false ∧
        (matchDownloadToTab d fn tabs).2 = tabs) := by
  constructor
  · rintro ⟨⟨j, stj⟩, hmem, hcand, n, hsc, hn⟩
    rcases hb : bestOf fn tabs (none, 0) with ⟨rm, rs⟩
    have hub := bestOf_ub fn tabs (none, 0) j stj hmem hcand n hsc
    rw [hb] at hub
    simp only at hub
    rcases bestOf_first fn tabs (none, 0) (rm, rs) hb with h1 |
      ⟨l1, i, st, l2, heq, hcand2, hsc2, hmono, hfst, hearly⟩
    · rw [Prod.mk.injEq] at h1
      omega
    · simp only at hsc2 hfst
      subst hfst
      have h30 : (30 : Int) ≤ rs := le_trans hn hub
      have hmatch : matchDownloadToTab d fn tabs = (true, tabs.map (updOne i d)) := by
        unfold matchDownloadToTab
        rw [hb]
        simp [h30]
      refine ⟨by rw [hmatch], i, st, rs, ?_, hcand2, hsc2, h30, ?_, by rw [hmatch]⟩
      · rw [heq]
        exact List.mem_append_right _ (List.mem_cons_self _ _)
      · intro q hq hcq m hsq
        have := bestOf_ub fn tabs (none, 0) q.1 q.2 hq hcq m hsq
        rw [hb] at this
        simpa using this
  · intro hall
    rcases hb : bestOf fn tabs (none, 0) with ⟨rm, rs⟩
    rcases bestOf_first fn tabs (none, 0) (rm, rs) hb with h1 |
      ⟨l1, i, st, l2, heq, hcand2, hsc2, hmono, hfst, hearly⟩
    · rw [Prod.mk.injEq] at h1
      obtain ⟨hrm, hrs⟩ := h1
      subst hrm
      constructor <;>
        · unfold matchDownloadToTab
          rw [hb]
    · simp only at hsc2 hfst
      subst hfst
      have hmem : (i, st) ∈ tabs := by
        rw [heq]
        exact List.mem_append_right _ (List.mem_cons_self _ _)
      have hrs30 : rs < 30 := hall (i, st) hmem hcand2 rs hsc2
      constructor <;>
        · unfold matchDownloadToTab
          rw [hb]
          simp [not_le.mpr hrs30]

/-- C5 witness: a candidate scoring exactly 30 (bigram similarity
`round(140·3/14)`) binds, and a candidate scoring 29
(`round(140·4/19)`) does not. -/
theorem C5_threshold_boundary_witness :
    ((matchDownloadToTab 7 "abxcdxdexq"
      [(1, { status := "in-progress", downloadId := none, details := "",
             progress := 0, url := "", title := "abcdef", galleryId := none,
             hadProgressBar := false, startTime := 0 })]).1 = true) ∧
    ((matchDownloadToTab 7 "abxcdxdexefxqqq"
      [(1, { status := "in-progress", downloadId := none, details := "",
             progress := 0, url := "", title := "abcdef", galleryId := none,
             hadProgressBar := false, startTime := 0 })]).1 = false) :=
  ⟨((C5_threshold_boundary 7 "abxcdxdexq" _).1
      ⟨_, List.mem_cons_self _ _, by decide, 30, by decide, by norm_num⟩).1,
   ((C5_threshold_boundary 7 "abxcdxdexefxqqq" _).2 (by
      intro p hp hc n hs
      simp only [List.mem_singleton] at hp
      subst hp
      have h29 : scoreOf "abxcdxdexefxqqq"
          ({ status := "in-progress", downloadId := none, details := "",
             progress := 0, url := "", title := "abcdef", galleryId := none,
             hadProgressBar := false, startTime := 0 } : TabState) = JSNum.int 29 := by
        decide
      rw [h29] at hs
      injection hs with h
      omega)).1⟩

/-- C7 counterexample: in the reachable state `tieState` both tasks are
unbound, in progress, and score 100 against `"hello world.zip"` (a tie at
or above the threshold), task 2 has the strictly earlier `startTime`
(`createdAt`), yet the matcher binds task 1 — ties are not broken by
earliest `createdAt`. -/
theorem C7_tiebreak_counterexample :
    Reachable tieState ∧
    (∃ st1 st2 : TabState,
      mapGet tieState.tabs 1 = some st1 ∧ mapGet tieState.tabs 2 = some st2 ∧
      isCandidate st1 = true ∧ isCandidate st2 = true ∧
      scoreOf "hello world.zip" st1 = JSNum.int 100 ∧
      scoreOf "hello world.zip" st2 = JSNum.int 100 ∧
      st2.startTime < st1.startTime) ∧
    (matchDownloadToTab 9 "hello world.zip" tieState.tabs).1 = true ∧
    (mapGet (matchDownloadToTab 9 "hello world.zip" tieState.tabs).2 1).map
      (fun st => st.downloadId) = some (some 9) ∧
    (mapGet (matchDownloadToTab 9 "hello world.zip" tieState.tabs).2 2).map
      (fun st => st.downloadId) = some none := by
  refine ⟨Reachable.step (Reachable.step (Reachable.step Reachable.init trivial)
    trivial) trivial, ⟨newTaskRecord "u" "hello world" 3 "処理中...",
    newTaskRecord "u" "hello world" 2 "処理中...", ?_, ?_, ?_, ?_, ?_, ?_, ?_⟩, ?_, ?_, ?_⟩ <;>
    decide

/-- C7 amended: ties at or above the threshold are broken by earliest
position in the registry's iteration (insertion) order — the matcher binds
the first maximal-scoring candidate in map order (strict `>` never
replaces the incumbent), not the earliest `createdAt`; the two orders
coincide only while tasks are inserted chronologically. -/
theorem C7_tiebreak_amended (d : Nat) (fn : String) (tabs : List (Nat × TabState))
    (h : (matchDownloadToTab d fn tabs).1 = true) :
    ∃ l1 tid st l2, ∃ n : Int, tabs = l1 ++ (tid, st) :: l2 ∧ isCandidate st = true ∧
      scoreOf fn st = JSNum.int n ∧ 30 ≤ n ∧
      (∀ q ∈ l1, isCandidate q.2 = true →
        ∀ m : Int, scoreOf fn q.2 = JSNum.int m → m < n) ∧
      (∀ q ∈ tabs, isCandidate q.2 = true →
        ∀ m : Int, scoreOf fn q.2 = JSNum.int m → m ≤ n) ∧
      (matchDownloadToTab d fn tabs).2 = tabs.map (updOne tid d) := by
  rcases hb : bestOf fn tabs (none, 0) with ⟨rm, rs⟩
  unfold matchDownloadToTab at h ⊢
  rw [hb] at h ⊢
  cases rm with
  | none => simp at h
  | some tid =>
      by_cases h30 : (30 : Int) ≤ rs
      · rcases bestOf_first fn tabs (none, 0) (some tid, rs) hb with h1 |
          ⟨l1, i, st, l2, heq, hcand, hsc, hmono, hfst, hearly⟩
        · rw [Prod.mk.injEq] at h1
          cases h1.1
        · simp only at hsc hfst
          injection hfst with hfst
          subst hfst
          refine ⟨l1, tid, st, l2, rs, heq, hcand, hsc, h30, ?_, ?_, ?_⟩
          · intro q hq hcq m hsq
            exact hearly q.1 q.2 hq hcq m hsq
          · intro q hq hcq m hsq
            have := bestOf_ub fn tabs (none, 0) q.1 q.2 hq hcq m hsq
            rw [hb] at this
            simpa using this
          · simp [h30]
      · simp [h30] at h

/-- C7 amended witness: in `tieState` the matcher's bound task is the first
maximal candidate in map order. -/
theorem C7_tiebreak_amended_witness :
    ∃ l1 tid st l2, ∃ n : Int,
      tieState.tabs = l1 ++ (tid, st) :: l2 ∧ isCandidate st = true ∧
      scoreOf "hello world.zip" st = JSNum.int n ∧ 30 ≤ n ∧
      (∀ q ∈ l1, isCandidate q.2 = true →
        ∀ m : Int, scoreOf "hello world.zip" q.2 = JSNum.int m → m < n) ∧
      (∀ q ∈ tieState.tabs, isCandidate q.2 = true →
        ∀ m : Int, scoreOf "hello world.zip" q.2 = JSNum.int m → m ≤ n) ∧
      (matchDownloadToTab 9 "hello world.zip" tieState.tabs).2 =
        tieState.tabs.map (updOne tid 9) :=
  C7_tiebreak_amended 9 "hello world.zip" tieState.tabs (by decide)

theorem mapGet_map_updOne_self (tabs : List (Nat × TabState)) (tid d : Nat) :
    mapGet (tabs.map (updOne tid d)) tid =
      (mapGet tabs tid).map (fun st => { st with downloadId := some d }) := by
  induction tabs with
  | nil => rfl
  | cons p rest ih =>
      by_cases hp : p.1 = tid
      · have hhead : updOne tid d p = (tid, { p.2 with downloadId := some d }) := by
          simp [updOne, hp]
        rw [List.map_cons, hhead, mapGet_cons, mapGet_cons, if_pos rfl, if_pos hp]
        rfl
      · have hhead : updOne tid d p = p := by simp [updOne, hp]
        rw [List.map_cons, hhead, mapGet_cons, mapGet_cons, if_neg hp, if_neg hp]
        exact ih

theorem mapGet_map_updOne_ne (tabs : List (Nat × TabState)) (tid d j : Nat)
    (hj : j ≠ tid) : mapGet (tabs.map (updOne tid d)) j = mapGet tabs j := by
  induction tabs with
  | nil => rfl
  | cons p rest ih =>
      by_cases hp : p.1 = tid
      · have hhead : updOne tid d p = (tid, { p.2 with downloadId := some d }) := by
          simp [updOne, hp]
        rw [List.map_cons, hhead, mapGet_cons, mapGet_cons,
          if_neg (show ¬(tid, { p.2 with downloadId := some d }).1 = j from
            fun he => hj (he.symm)),
          if_neg (show ¬p.1 = j from fun he => hj ((hp ▸ he).symm))]
        exact ih
      · have hhead : updOne tid d p = p := by simp [updOne, hp]
        rw [List.map_cons, hhead, mapGet_cons, mapGet_cons]
        by_cases hpj : p.1 = j
        · rw [if_pos hpj, if_pos hpj]
        · rw [if_neg hpj, if_neg hpj]
          exact ih

/-- C6: late metadata re-match.  A download parked with no filename whose
name is later determined, scoring at or above the threshold against
exactly one unbound in-progress task, is bound to that task and its entry
leaves the unmatched queue. -/
theorem C6_late_metadata_rematch (s : Sys) (d : Nat) (name url0 : String)
    (hn : name ≠ "")
    (hpark : mapGet s.unmatched d = some ⟨"", url0⟩)
    (hkeys : KeysNodup s.tabs)
    (t0 : Nat) (st0 : TabState) (n0 : Int)
    (hmem : (t0, st0) ∈ s.tabs) (hc : isCandidate st0 = true)
    (hs : scoreOf name st0 = JSNum.int n0) (hn0 : 30 ≤ n0)
    (huniq : ∀ q ∈ s.tabs, q.1 ≠ t0 → isCandidate q.2 = true →
      ∀ m : Int, scoreOf name q.2 = JSNum.int m → m < 30) :
    mapGet (stepF s (Ev.nameDetermined d name)).tabs t0 =
      some { st0 with downloadId := some d } ∧
    mapGet (stepF s (Ev.nameDetermined d name)).unmatched d = none := by
  rcases hb : bestOf name s.tabs (none, 0) with ⟨rm, rs⟩
  have hub := bestOf_ub name s.tabs (none, 0) t0 st0 hmem hc n0 hs
  rw [hb] at hub
  simp only at hub
  rcases bestOf_first name s.tabs (none, 0) (rm, rs) hb with h1 |
    ⟨l1, i, st, l2, heq, hcand, hsc, hmono, hfst, hearly⟩
  · rw [Prod.mk.injEq] at h1
    omega
  · simp only at hsc hfst
    subst hfst
    have hamem : (i, st) ∈ s.tabs := by
      rw [heq]
      exact List.mem_append_right _ (List.mem_cons_self _ _)
    have hit0 : i = t0 := by
      by_contra hne
      have := huniq (i, st) hamem hne hcand rs hsc
      omega
    subst hit0
    have hst : st = st0 := by
      have h1 := mapGet_eq_some_of_mem hkeys hamem
      have h2 := mapGet_eq_some_of_mem hkeys hmem
      rw [h1] at h2
      injection h2
    subst hst
    have hrs : rs = n0 := by
      rw [hs] at hsc
      injection hsc with h
      exact h.symm
    have hm30 : (30 : Int) ≤ rs := by omega
    have hmatch : matchDownloadToTab d name s.tabs = (true, s.tabs.map (updOne i d)) := by
      unfold matchDownloadToTab
      rw [hb]
      simp [hm30]
    have hstep : stepF s (Ev.nameDetermined d name) =
        { tabs := s.tabs.map (updOne i d),
          unmatched := mapDelete (mapSet s.unmatched d ⟨name, url0⟩) d } := by
      simp only [stepF]
      rw [if_pos hn, hpark]
      simp only [hmatch]
      simp
    rw [hstep]
    constructor
    · rw [mapGet_map_updOne_self, mapGet_eq_some_of_mem hkeys hmem]
      rfl
    · exact mapGet_mapDelete_self _ d

/-- C6 witness: download 5 parked with no filename; its name is determined
as `"hello world.zip"`, which scores 100 against the single unbound
in-progress task 1; the step binds task 1 to download 5 and removes the
queue entry. -/
theorem C6_late_metadata_rematch_witness :
    mapGet (stepF c6Sys (Ev.nameDetermined 5 "hello world.zip")).tabs 1 =
      some { c6Task with downloadId := some 5 } ∧
    mapGet (stepF c6Sys (Ev.nameDetermined 5 "hello world.zip")).unmatched 5 = none :=
  C6_late_metadata_rematch c6Sys 5 "hello world.zip" "u" (by decide) (by decide)
    (by simp [KeysNodup, c6Sys]) 1 c6Task 100 (List.mem_cons_self _ _) (by decide)
    (by decide) (by norm_num)
    (by
      intro q hq hne
      simp only [c6Sys, List.mem_singleton] at hq
      subst hq
      exact absurd rfl hne)

/-! ## Status-tracking lemmas for the step relation -/

theorem mem_unique_of_keysNodup {α : Type} {m : List (Nat × α)} {k : Nat} {v w : α}
    (hn : KeysNodup m) (h1 : (k, v) ∈ m) (h2 : (k, w) ∈ m) : v = w := by
  have e1 := mapGet_eq_some_of_mem hn h1
  have e2 := mapGet_eq_some_of_mem hn h2
  rw [e1] at e2
  injection e2

theorem mem_updateTabState_elim {tabs : List (Nat × TabState)} {tabId : Nat}
    {stt det : String} {j : Nat} {v : TabState}
    (h : (j, v) ∈ updateTabState tabs tabId stt det) :
    ((j, v) ∈ tabs ∧ j ≠ tabId) ∨
    (j = tabId ∧ v.status = stt ∧
      v.downloadId = ((mapGet tabs tabId).getD defaultRecord).downloadId) := by
  unfold updateTabState at h
  rcases mem_mapSet_elim h with ⟨rfl, rfl⟩ | ⟨hin, hne⟩
  · exact Or.inr ⟨rfl, rfl, rfl⟩
  · exact Or.inl ⟨hin, hne⟩

theorem mem_matchResult_elim {d : Nat} {fn : String} {tabs : List (Nat × TabState)}
    {j : Nat} {v : TabState} (h : (j, v) ∈ (matchDownloadToTab d fn tabs).2) :
    ∃ v0, (j, v0) ∈ tabs ∧ v.status = v0.status ∧
      (v = v0 ∨ v = { v0 with downloadId := some d }) := by
  unfold matchDownloadToTab at h
  rcases hb : bestOf fn tabs (none, 0) with ⟨rm, rs⟩
  rw [hb] at h
  cases rm with
  | none => exact ⟨v, h, rfl, Or.inl rfl⟩
  | some tid =>
      replace h : (j, v) ∈ (if (30 : Int) ≤ rs then
          ((true : Bool), tabs.map (updOne tid d)) else ((false : Bool), tabs)).2 := h
      by_cases h30 : (30 : Int) ≤ rs
      · rw [if_pos h30] at h
        simp only at h
        rcases List.mem_map.mp h with ⟨p, hp, he⟩
        unfold updOne at he
        by_cases hpt : p.1 = tid
        · rw [if_pos hpt] at he
          rw [Prod.mk.injEq] at he
          obtain ⟨h1, h2⟩ := he
          refine ⟨p.2, ?_, by rw [← h2], Or.inr h2.symm⟩
          rw [← h1, hpt, ← hpt]
          exact hp
        · rw [if_neg hpt] at he
          subst he
          exact ⟨v, hp, rfl, Or.inl rfl⟩
      · rw [if_neg h30] at h
        exact ⟨v, h, rfl, Or.inl rfl⟩

theorem matchResult_eq_or_map (d : Nat) (fn : String) (tabs : List (Nat × TabState)) :
    (matchDownloadToTab d fn tabs).2 = tabs ∨
    ∃ tid, (matchDownloadToTab d fn tabs).2 = tabs.map (updOne tid d) := by
  unfold matchDownloadToTab
  rcases hb : bestOf fn tabs (none, 0) with ⟨rm, rs⟩
  cases rm with
  | none => exact Or.inl rfl
  | some tid =>
      by_cases h30 : (30 : Int) ≤ rs
      · refine Or.inr ⟨tid, ?_⟩
        show (if (30 : Int) ≤ rs then
          ((true : Bool), tabs.map (updOne tid d)) else ((false : Bool), tabs)).2 = _
        rw [if_pos h30]
      · refine Or.inl ?_
        show (if (30 : Int) ≤ rs then
          ((true : Bool), tabs.map (updOne tid d)) else ((false : Bool), tabs)).2 = _
        rw [if_neg h30]

theorem keysNodup_matchResult {d : Nat} {fn : String} {tabs : List (Nat × TabState)}
    (h : KeysNodup tabs) : KeysNodup (matchDownloadToTab d fn tabs).2 := by
  unfold matchDownloadToTab
  rcases hb : bestOf fn tabs (none, 0) with ⟨rm, rs⟩
  cases rm with
  | none => exact h
  | some tid =>
      show KeysNodup (if (30 : Int) ≤ rs then
        ((true : Bool), tabs.map (updOne tid d)) else ((false : Bool), tabs)).2
      by_cases h30 : (30 : Int) ≤ rs
      · rw [if_pos h30]
        simp only
        unfold KeysNodup at h ⊢
        have : (tabs.map (updOne tid d)).map Prod.fst = tabs.map Prod.fst := by
          rw [List.map_map]
          apply List.map_congr_left
          intro p _
          by_cases hpt : p.1 = tid
          · simp [Function.comp, updOne, hpt]
          · simp [Function.comp, updOne, hpt]
        rw [this]
        exact h
      · rw [if_neg h30]
        exact h

/-- Across any single handler step, an entry whose status is `"complete"`
afterwards was either already complete or is the task carrying the bound
event id of a `terminal·complete` notification. -/
theorem complete_only_via_terminal (s : Sys) (e : Ev) (hkeys : KeysNodup s.tabs)
    (i : Nat) (st' : TabState) (hmem : (i, st') ∈ (stepF s e).tabs)
    (hcomp : st'.status = "complete") :
    (∃ st, (i, st) ∈ s.tabs ∧ st.status = "complete") ∨
    ∃ d err, e = Ev.terminal d "complete" err ∧ st'.downloadId = some d := by
  cases e with
  | startTask tabId url title time =>
      rcases mem_mapSet_elim hmem with ⟨rfl, rfl⟩ | ⟨hin, _⟩
      · simp [newTaskRecord] at hcomp
      · exact Or.inl ⟨st', hin, hcomp⟩
  | retryTask tabId url title time =>
      rcases mem_mapSet_elim hmem with ⟨rfl, rfl⟩ | ⟨hin, _⟩
      · simp [newTaskRecord] at hcomp
      · exact Or.inl ⟨st', hin, hcomp⟩
  | created d filename url =>
      by_cases hf : filename ≠ ""
      · have htabs : (stepF s (Ev.created d filename url)).tabs =
            (matchDownloadToTab d filename s.tabs).2 := by
          by_cases hr : (matchDownloadToTab d filename s.tabs).1 = true <;>
            simp [stepF, if_pos hf, hr]
        rw [htabs] at hmem
        rcases mem_matchResult_elim hmem with ⟨v0, hv0, hst, _⟩
        exact Or.inl ⟨v0, hv0, by rw [← hst]; exact hcomp⟩
      · have htabs : (stepF s (Ev.created d filename url)).tabs = s.tabs := by
          simp [stepF, if_neg hf]
        rw [htabs] at hmem
        exact Or.inl ⟨st', hmem, hcomp⟩
  | nameDetermined d name =>
      by_cases hn : name ≠ ""
      · cases hum : mapGet s.unmatched d with
        | none =>
            have htabs : (stepF s (Ev.nameDetermined d name)).tabs = s.tabs := by
              simp [stepF, if_pos hn, hum]
            rw [htabs] at hmem
            exact Or.inl ⟨st', hmem, hcomp⟩
        | some info =>
            by_cases hif : info.filename = ""
            · have htabs : (stepF s (Ev.nameDetermined d name)).tabs =
                  (matchDownloadToTab d name s.tabs).2 := by
                by_cases hr : (matchDownloadToTab d name s.tabs).1 = true <;>
                  simp [stepF, if_pos hn, hum, hif, hr]
              rw [htabs] at hmem
              rcases mem_matchResult_elim hmem with ⟨v0, hv0, hst, _⟩
              exact Or.inl ⟨v0, hv0, by rw [← hst]; exact hcomp⟩
            · have htabs : (stepF s (Ev.nameDetermined d name)).tabs = s.tabs := by
                simp [stepF, if_pos hn, hum, hif]
              rw [htabs] at hmem
              exact Or.inl ⟨st', hmem, hcomp⟩
      · have htabs : (stepF s (Ev.nameDetermined d name)).tabs = s.tabs := by
          simp [stepF, hn]
        rw [htabs] at hmem
        exact Or.inl ⟨st', hmem, hcomp⟩
  | terminal d cur err =>
      cases hfind : s.tabs.find? (fun p => p.2.downloadId == some d) with
      | some p =>
          have hpmem : (p.1, p.2) ∈ s.tabs := List.mem_of_find?_eq_some hfind
          have hpd : p.2.downloadId = some d := by
            have := List.find?_some hfind
            simpa using this
          by_cases hcur : cur = "complete"
          · subst hcur
            have htabs : (stepF s (Ev.terminal d "complete" err)).tabs =
                updateTabState s.tabs p.1 "complete" "" := by
              simp [stepF, hfind]
            rw [htabs] at hmem
            rcases mem_updateTabState_elim hmem with ⟨hin, _⟩ | ⟨rfl, hstat, hdid⟩
            · exact Or.inl ⟨st', hin, hcomp⟩
            · refine Or.inr ⟨d, err, rfl, ?_⟩
              rw [hdid, mapGet_eq_some_of_mem hkeys hpmem]
              exact hpd
          · by_cases hcur2 : cur = "interrupted"
            · subst hcur2
              have htabs : (stepF s (Ev.terminal d "interrupted" err)).tabs =
                  updateTabState s.tabs p.1 "error"
                    (if err = "" then "中断" else err) := by
                simp [stepF, hfind]
              rw [htabs] at hmem
              rcases mem_updateTabState_elim hmem with ⟨hin, _⟩ | ⟨rfl, hstat, hdid⟩
              · exact Or.inl ⟨st', hin, hcomp⟩
              · rw [hstat] at hcomp
                exact absurd hcomp (by decide)
            · have htabs : (stepF s (Ev.terminal d cur err)).tabs = s.tabs := by
                simp [stepF, hfind, hcur, hcur2]
              rw [htabs] at hmem
              exact Or.inl ⟨st', hmem, hcomp⟩
      | none =>
          by_cases hcur : cur = "complete"
          · subst hcur
            cases hum : mapGet s.unmatched d with
            | none =>
                have htabs : (stepF s (Ev.terminal d "complete" err)).tabs = s.tabs := by
                  simp [stepF, hfind, hum]
                rw [htabs] at hmem
                exact Or.inl ⟨st', hmem, hcomp⟩
            | some info =>
                by_cases hif : info.filename ≠ ""
                · cases hq : (matchDownloadToTab d info.filename s.tabs).2.find?
                      (fun p => p.2.downloadId == some d) with
                  | none =>
                      have htabs : (stepF s (Ev.terminal d "complete" err)).tabs =
                          (matchDownloadToTab d info.filename s.tabs).2 := by
                        by_cases hr : (matchDownloadToTab d info.filename s.tabs).1 = true <;>
                          simp [stepF, hfind, hum, hif, hq, hr]
                      rw [htabs] at hmem
                      rcases mem_matchResult_elim hmem with ⟨v0, hv0, hst, _⟩
                      exact Or.inl ⟨v0, hv0, by rw [← hst]; exact hcomp⟩
                  | some q =>
                      have hqmem : (q.1, q.2) ∈ (matchDownloadToTab d info.filename s.tabs).2 :=
                        List.mem_of_find?_eq_some hq
                      have hqd : q.2.downloadId = some d := by
                        have := List.find?_some hq
                        simpa using this
                      by_cases hr : (matchDownloadToTab d info.filename s.tabs).1 = true
                      · have htabs : (stepF s (Ev.terminal d "complete" err)).tabs =
                            updateTabState (matchDownloadToTab d info.filename s.tabs).2
                              q.1 "complete" "" := by
                          simp [stepF, hfind, hum, hif, hq, hr]
                        rw [htabs] at hmem
                        rcases mem_updateTabState_elim hmem with ⟨hin, _⟩ | ⟨rfl, hstat, hdid⟩
                        · rcases mem_matchResult_elim hin with ⟨v0, hv0, hst, _⟩
                          exact Or.inl ⟨v0, hv0, by rw [← hst]; exact hcomp⟩
                        · refine Or.inr ⟨d, err, rfl, ?_⟩
                          rw [hdid, mapGet_eq_some_of_mem (keysNodup_matchResult hkeys) hqmem]
                          exact hqd
                      · have htabs : (stepF s (Ev.terminal d "complete" err)).tabs =
                            (matchDownloadToTab d info.filename s.tabs).2 := by
                          simp [stepF, hfind, hum, hif, hq, hr]
                        rw [htabs] at hmem
                        rcases mem_matchResult_elim hmem with ⟨v0, hv0, hst, _⟩
                        exact Or.inl ⟨v0, hv0, by rw [← hst]; exact hcomp⟩
                · have htabs : (stepF s (Ev.terminal d "complete" err)).tabs = s.tabs := by
                    simp [stepF, hfind, hum, hif]
                  rw [htabs] at hmem
                  exact Or.inl ⟨st', hmem, hcomp⟩
          · have htabs : (stepF s (Ev.terminal d cur err)).tabs = s.tabs := by
              simp [stepF, hfind, hcur]
            rw [htabs] at hmem
            exact Or.inl ⟨st', hmem, hcomp⟩
  | poll tabId res =>
      cases res with
      | none =>
          exact Or.inl ⟨st', hmem, hcomp⟩
      | some r =>
          cases hg : mapGet s.tabs tabId with
          | none =>
              have htabs : (stepF s (Ev.poll tabId (some r))).tabs = s.tabs := by
                simp [stepF, pollApply, hg]
              rw [htabs] at hmem
              exact Or.inl ⟨st', hmem, hcomp⟩
          | some st0 =>
              have hst0mem : (tabId, st0) ∈ s.tabs := mem_of_mapGet_eq_some hg
              by_cases h1 : r.status = "downloading"
              · have htabs : (stepF s (Ev.poll tabId (some r))).tabs =
                    mapSet s.tabs tabId (pollDownloadingRec st0 r.progress) := by
                  simp [stepF, pollApply, hg, h1]
                rw [htabs] at hmem
                rcases mem_mapSet_elim hmem with ⟨rfl, rfl⟩ | ⟨hin, _⟩
                · simp [pollDownloadingRec] at hcomp
                · exact Or.inl ⟨st', hin, hcomp⟩
              · by_cases h2 : r.status = "preparing"
                · by_cases h3 : (st0.hadProgressBar && !jsTruthyId st0.downloadId) = true
                  · have htabs : (stepF s (Ev.poll tabId (some r))).tabs =
                        mapSet s.tabs tabId (pollPreparingRec st0 r.progress) := by
                      simp [stepF, pollApply, hg, h1, h2, h3]
                    rw [htabs] at hmem
                    rcases mem_mapSet_elim hmem with ⟨rfl, rfl⟩ | ⟨hin, _⟩
                    · simp [pollPreparingRec] at hcomp
                    · exact Or.inl ⟨st', hin, hcomp⟩
                  · have htabs : (stepF s (Ev.poll tabId (some r))).tabs =
                        mapSet s.tabs tabId (pollProgressRec st0 r.progress) := by
                      simp [stepF, pollApply, hg, h1, h2, h3]
                    rw [htabs] at hmem
                    rcases mem_mapSet_elim hmem with ⟨rfl, rfl⟩ | ⟨hin, _⟩
                    · exact Or.inl ⟨st0, hst0mem, hcomp⟩
                    · exact Or.inl ⟨st', hin, hcomp⟩
                · have htabs : (stepF s (Ev.poll tabId (some r))).tabs =
                      mapSet s.tabs tabId (pollProgressRec st0 r.progress) := by
                    simp [stepF, pollApply, hg, h1, h2]
                  rw [htabs] at hmem
                  rcases mem_mapSet_elim hmem with ⟨rfl, rfl⟩ | ⟨hin, _⟩
                  · exact Or.inl ⟨st0, hst0mem, hcomp⟩
                  · exact Or.inl ⟨st', hin, hcomp⟩
  | clicked tabId =>
      rcases mem_mapSet_elim hmem with ⟨rfl, rfl⟩ | ⟨hin, _⟩
      · simp [clickedRec] at hcomp
      · exact Or.inl ⟨st', hin, hcomp⟩
  | progressMsg tabId p =>
      cases hg : mapGet s.tabs tabId with
      | some st0 =>
          have htabs : (stepF s (Ev.progressMsg tabId p)).tabs =
              mapSet s.tabs tabId (progressMsgRec st0 p) := by
            simp [stepF, hg]
          rw [htabs] at hmem
          rcases mem_mapSet_elim hmem with ⟨rfl, rfl⟩ | ⟨hin, _⟩
          · simp [progressMsgRec] at hcomp
          · exact Or.inl ⟨st', hin, hcomp⟩
      | none =>
          have htabs : (stepF s (Ev.progressMsg tabId p)).tabs =
              updateTabState s.tabs tabId "in-progress" (toString p ++ "%") := by
            simp [stepF, hg]
          rw [htabs] at hmem
          rcases mem_updateTabState_elim hmem with ⟨hin, _⟩ | ⟨rfl, hstat, _⟩
          · exact Or.inl ⟨st', hin, hcomp⟩
          · rw [hstat] at hcomp
            exact absurd hcomp (by decide)
  | errorMsg tabId err2 =>
      rcases mem_updateTabState_elim hmem with ⟨hin, _⟩ | ⟨rfl, hstat, _⟩
      · exact Or.inl ⟨st', hin, hcomp⟩
      · rw [hstat] at hcomp
        exact absurd hcomp (by decide)
  | clearCompleted =>
      have := List.mem_filter.mp hmem
      exact Or.inl ⟨st', this.1, hcomp⟩

/-- A poll step never moves a task out of `"in-progress"`: the poller
writes only `"in-progress"` (or leaves the status untouched). -/
theorem poll_preserves_in_progress (s : Sys) (hkeys : KeysNodup s.tabs)
    (tabId : Nat) (res : Option PollRes) (i : Nat) (st st' : TabState)
    (hmem : (i, st) ∈ s.tabs)
    (hmem' : (i, st') ∈ (stepF s (Ev.poll tabId res)).tabs)
    (hpro : st.status = "in-progress") : st'.status = "in-progress" := by
  cases res with
  | none =>
      have he : st' = st := mem_unique_of_keysNodup hkeys hmem' hmem
      rw [he]
      exact hpro
  | some r =>
      cases hg : mapGet s.tabs tabId with
      | none =>
          have htabs : (stepF s (Ev.poll tabId (some r))).tabs = s.tabs := by
            simp [stepF, pollApply, hg]
          rw [htabs] at hmem'
          rw [mem_unique_of_keysNodup hkeys hmem' hmem]
          exact hpro
      | some st0 =>
          have hst0mem : (tabId, st0) ∈ s.tabs := mem_of_mapGet_eq_some hg
          by_cases h1 : r.status = "downloading"
          · have htabs : (stepF s (Ev.poll tabId (some r))).tabs =
                mapSet s.tabs tabId (pollDownloadingRec st0 r.progress) := by
              simp [stepF, pollApply, hg, h1]
            rw [htabs] at hmem'
            rcases mem_mapSet_elim hmem' with ⟨rfl, rfl⟩ | ⟨hin, _⟩
            · rfl
            · rw [mem_unique_of_keysNodup hkeys hin hmem]
              exact hpro
          · by_cases h2 : r.status = "preparing"
            · by_cases h3 : (st0.hadProgressBar && !jsTruthyId st0.downloadId) = true
              · have htabs : (stepF s (Ev.poll tabId (some r))).tabs =
                    mapSet s.tabs tabId (pollPreparingRec st0 r.progress) := by
                  simp [stepF, pollApply, hg, h1, h2, h3]
                rw [htabs] at hmem'
                rcases mem_mapSet_elim hmem' with ⟨rfl, rfl⟩ | ⟨hin, _⟩
                · rfl
                · rw [mem_unique_of_keysNodup hkeys hin hmem]
                  exact hpro
              · have htabs : (stepF s (Ev.poll tabId (some r))).tabs =
                    mapSet s.tabs tabId (pollProgressRec st0 r.progress) := by
                  simp [stepF, pollApply, hg, h1, h2, h3]
                rw [htabs] at hmem'
                rcases mem_mapSet_elim hmem' with ⟨rfl, rfl⟩ | ⟨hin, _⟩
                · have he : st0 = st := mem_unique_of_keysNodup hkeys hst0mem hmem
                  show st0.status = "in-progress"
                  rw [he]
                  exact hpro
                · rw [mem_unique_of_keysNodup hkeys hin hmem]
                  exact hpro
            · have htabs : (stepF s (Ev.poll tabId (some r))).tabs =
                  mapSet s.tabs tabId (pollProgressRec st0 r.progress) := by
                simp [stepF, pollApply, hg, h1, h2]
              rw [htabs] at hmem'
              rcases mem_mapSet_elim hmem' with ⟨rfl, rfl⟩ | ⟨hin, _⟩
              · have he : st0 = st := mem_unique_of_keysNodup hkeys hst0mem hmem
                show st0.status = "in-progress"
                rw [he]
                exact hpro
              · rw [mem_unique_of_keysNodup hkeys hin hmem]
                exact hpro

/-- C2: terminal authority.  For any worker state whose registry embeds a
JS `Map` (distinct keys) and any handler step: a task that is `complete`
afterwards was either already complete or the step was the download
subsystem's `terminal·complete` notification for that task's bound event
id; and a poll step (any classifier result — downloading, preparing,
ready, unknown — or a failed script) keeps every `in-progress` task
`in-progress`.  In particular a task at progress 95 whose indicator
disappears stays `InProgress`. -/
theorem C2_poller_never_completes (s : Sys) (e : Ev) (hkeys : KeysNodup s.tabs) :
    (∀ i st', (i, st') ∈ (stepF s e).tabs → st'.status = "complete" →
      (∃ st, (i, st) ∈ s.tabs ∧ st.status = "complete") ∨
      ∃ d err, e = Ev.terminal d "complete" err ∧ st'.downloadId = some d) ∧
    (∀ tabId res i st st', (i, st) ∈ s.tabs →
      (i, st') ∈ (stepF s (Ev.poll tabId res)).tabs →
      st.status = "in-progress" → st'.status = "in-progress") :=
  ⟨fun i st' hmem hcomp => complete_only_via_terminal s e hkeys i st' hmem hcomp,
   fun tabId res i st st' hmem hmem' hpro =>
     poll_preserves_in_progress s hkeys tabId res i st st' hmem hmem' hpro⟩

/-- C2 witness: (a) after `terminal 5 complete` the completed task indeed
carries bound event id 5; (b) after a `preparing` poll (progress indicator
gone) the progress-95 task is still `in-progress`. -/
theorem C2_poller_never_completes_witness :
    ((∃ st, (1, st) ∈ (Sys.mk [(1, c2Task)] []).tabs ∧ st.status = "complete") ∨
      ∃ d err, Ev.terminal 5 "complete" "" = Ev.terminal d "complete" err ∧
        ({ c2Task with status := "complete", details := "" } : TabState).downloadId =
          some d) ∧
    (pollPreparingRec c2bTask 100).status = "in-progress" :=
  ⟨(C2_poller_never_completes (Sys.mk [(1, c2Task)] []) (Ev.terminal 5 "complete" "")
      (by simp [KeysNodup])).1 1 { c2Task with status := "complete", details := "" }
      (by decide) (by decide),
   (C2_poller_never_completes (Sys.mk [(1, c2bTask)] []) (Ev.poll 1 (some ⟨"preparing", 100⟩))
      (by simp [KeysNodup])).2 1 (some ⟨"preparing", 100⟩) 1 c2bTask
      (pollPreparingRec c2bTask 100) (List.mem_cons_self _ _) (by decide) (by decide)⟩

/-- C9 counterexample: the state-transition operation called with a task id
absent from the registry does not fail — it creates a brand-new default
record for that id, so the registry gains an entry. -/
theorem C9_unknown_task_counterexample :
    mapGet (updateTabState ([] : List (Nat × TabState)) 99 "error" "boom") 99 =
      some { status := "error", downloadId := none, details := "boom", progress := 0,
             url := "", title := "", galleryId := none, hadProgressBar := false,
             startTime := 0 } := by
  decide

/-- C9 amended: `updateTabState` on an id absent from the registry does not
fail with an error; it silently inserts a fresh record (null `downloadId`,
progress 0) carrying the requested status and detail.  Other tasks'
records are unaffected, as the original claim said. -/
theorem C9_unknown_task_amended (tabs : List (Nat × TabState)) (tabId : Nat)
    (status details : String) (h : mapGet tabs tabId = none) :
    mapGet (updateTabState tabs tabId status details) tabId =
      some { defaultRecord with status := status, details := details } ∧
    ∀ j, j ≠ tabId → mapGet (updateTabState tabs tabId status details) j = mapGet tabs j := by
  unfold updateTabState
  rw [h]
  exact ⟨mapGet_mapSet_self _ _ _, fun j hj => mapGet_mapSet_ne _ _ _ _ hj⟩

/-- C9 amended witness: transitioning unknown id 99 on an empty registry
inserts the default record and touches nothing else. -/
theorem C9_unknown_task_amended_witness :
    mapGet (updateTabState ([] : List (Nat × TabState)) 42 "complete" "") 42 =
      some { defaultRecord with status := "complete", details := "" } ∧
    ∀ j, j ≠ 42 →
      mapGet (updateTabState ([] : List (Nat × TabState)) 42 "complete" "") j =
        mapGet ([] : List (Nat × TabState)) j :=
  C9_unknown_task_amended [] 42 "complete" "" (by decide)

/-! ## Helper lemmas for the binding invariant (C1) -/

theorem matchResult_of_true {d : Nat} {fn : String} {tabs : List (Nat × TabState)}
    (h : (matchDownloadToTab d fn tabs).1 = true) :
    ∃ tid st0, (tid, st0) ∈ tabs ∧ isCandidate st0 = true ∧
      (matchDownloadToTab d fn tabs).2 = tabs.map (updOne tid d) := by
  rcases hb : bestOf fn tabs (none, 0) with ⟨rm, rs⟩
  unfold matchDownloadToTab at h ⊢
  rw [hb] at h ⊢
  cases rm with
  | none => simp at h
  | some tid =>
      by_cases h30 : (30 : Int) ≤ rs
      · rcases bestOf_first fn tabs (none, 0) (some tid, rs) hb with h1 |
          ⟨l1, i, st, l2, heq, hcand, hsc, hmono, hfst, hearly⟩
        · rw [Prod.mk.injEq] at h1
          cases h1.1
        · simp only at hfst
          injection hfst with hfst
          subst hfst
          refine ⟨tid, st, ?_, hcand, by simp [h30]⟩
          rw [heq]
          exact List.mem_append_right _ (List.mem_cons_self _ _)
      · simp [h30] at h

theorem matchResult_of_not_true {d : Nat} {fn : String} {tabs : List (Nat × TabState)}
    (h : ¬(matchDownloadToTab d fn tabs).1 = true) :
    (matchDownloadToTab d fn tabs).2 = tabs := by
  rcases hb : bestOf fn tabs (none, 0) with ⟨rm, rs⟩
  unfold matchDownloadToTab at h ⊢
  rw [hb] at h ⊢
  cases rm with
  | none => rfl
  | some tid =>
      by_cases h30 : (30 : Int) ≤ rs
      · exact absurd (by simp [h30]) h
      · simp [h30]

theorem mem_map_updOne_elim {tabs : List (Nat × TabState)} {tid d j : Nat} {v : TabState}
    (h : (j, v) ∈ tabs.map (updOne tid d)) :
    (∃ v0, (j, v0) ∈ tabs ∧ j ≠ tid ∧ v = v0) ∨
    (∃ v0, (tid, v0) ∈ tabs ∧ j = tid ∧ v = { v0 with downloadId := some d }) := by
  rcases List.mem_map.mp h with ⟨p, hp, he⟩
  unfold updOne at he
  by_cases hpt : p.1 = tid
  · rw [if_pos hpt] at he
    rw [Prod.mk.injEq] at he
    obtain ⟨h1, h2⟩ := he
    refine Or.inr ⟨p.2, ?_, by rw [← h1, hpt], h2.symm⟩
    rw [← hpt]
    exact hp
  · rw [if_neg hpt] at he
    obtain ⟨p1, p2⟩ := p
    rw [Prod.mk.injEq] at he
    obtain ⟨h1, h2⟩ := he
    subst h1
    subst h2
    exact Or.inl ⟨p2, hp, hpt, rfl⟩

theorem mem_map_updOne_bound {tabs : List (Nat × TabState)} {tid d j : Nat}
    {v : TabState} {x : Nat} (h : (j, v) ∈ tabs.map (updOne tid d))
    (hd : v.downloadId = some x) :
    x = d ∨ ∃ w, (j, w) ∈ tabs ∧ w.downloadId = some x := by
  rcases mem_map_updOne_elim h with ⟨v0, hv0, _, hveq⟩ | ⟨v0, hv0, hjeq, hveq⟩
  · rw [hveq] at hd
    exact Or.inr ⟨v0, hv0, hd⟩
  · rw [hveq] at hd
    simp only at hd
    injection hd with hd
    exact Or.inl hd.symm

theorem boundInj_map_updOne {tabs : List (Nat × TabState)} {tid d : Nat}
    (hbi : BoundInj tabs)
    (hunb : ∀ i st, (i, st) ∈ tabs → st.downloadId ≠ some d) :
    BoundInj (tabs.map (updOne tid d)) := by
  intro i j sti stj x hi hj hdi hdj
  rcases mem_map_updOne_elim hi with ⟨vi, hvi, _, hvieq⟩ | ⟨vi, hvi, hieq, hvieq⟩ <;>
    rcases mem_map_updOne_elim hj with ⟨vj, hvj, _, hvjeq⟩ | ⟨vj, hvj, hjeq, hvjeq⟩
  · rw [hvieq] at hdi
    rw [hvjeq] at hdj
    exact hbi i j vi vj x hvi hvj hdi hdj
  · rw [hvieq] at hdi
    rw [hvjeq] at hdj
    simp only at hdj
    injection hdj with hdj
    subst hdj
    exact absurd hdi (hunb i vi hvi)
  · rw [hvieq] at hdi
    rw [hvjeq] at hdj
    simp only at hdi
    injection hdi with hdi
    subst hdi
    exact absurd hdj (hunb j vj hvj)
  · rw [hieq, hjeq]

theorem noZero_map_updOne {tabs : List (Nat × TabState)} {tid d : Nat}
    (hnz : NoZeroBound tabs) (hd : d ≠ 0) :
    NoZeroBound (tabs.map (updOne tid d)) := by
  intro i st hm hzero
  rcases mem_map_updOne_bound hm hzero with h0 | ⟨w, hw, hwd⟩
  · exact hd h0.symm
  · exact hnz i w hw hwd

theorem mem_updateTabState_bound {tabs : List (Nat × TabState)} {tabId : Nat}
    {stt det : String} {j : Nat} {v : TabState} {x : Nat}
    (h : (j, v) ∈ updateTabState tabs tabId stt det) (hd : v.downloadId = some x) :
    ∃ w, (j, w) ∈ tabs ∧ w.downloadId = some x := by
  rcases mem_updateTabState_elim h with ⟨hin, _⟩ | ⟨hjeq, _, hdid⟩
  · exact ⟨v, hin, hd⟩
  · rw [hd] at hdid
    cases hg : mapGet tabs tabId with
    | none =>
        rw [hg] at hdid
        cases hdid
    | some w =>
        rw [hg] at hdid
        rw [hjeq]
        exact ⟨w, mem_of_mapGet_eq_some hg, hdid.symm⟩

theorem invTabs_of_boundPreserving {tabs tabs' : List (Nat × TabState)}
    (hbi : BoundInj tabs) (hnz : NoZeroBound tabs)
    (hT : ∀ j v x, (j, v) ∈ tabs' → v.downloadId = some x →
          ∃ w, (j, w) ∈ tabs ∧ w.downloadId = some x) :
    BoundInj tabs' ∧ NoZeroBound tabs' := by
  constructor
  · intro i j sti stj x hi hj hdi hdj
    obtain ⟨wi, hwi, hdi2⟩ := hT i sti x hi hdi
    obtain ⟨wj, hwj, hdj2⟩ := hT j stj x hj hdj
    exact hbi i j wi wj x hwi hwj hdi2 hdj2
  · intro i st hm hd0
    obtain ⟨w, hw, hwd⟩ := hT i st 0 hm hd0
    exact hnz i w hw hwd

theorem parkedUnbound_mk (s : Sys) (tabs' : List (Nat × TabState))
    (unmatched' : List (Nat × UnmatchedInfo))
    (hT : ∀ j v x, (j, v) ∈ tabs' → v.downloadId = some x →
          ∃ k w, (k, w) ∈ s.tabs ∧ w.downloadId = some x)
    (hU : ∀ e info, (e, info) ∈ unmatched' → info.filename = "" →
          ∀ k w, (k, w) ∈ s.tabs → w.downloadId ≠ some e) :
    ParkedUnbound ⟨tabs', unmatched'⟩ := by
  intro e info he hfil i st hst hd
  obtain ⟨k, w, hw, hwd⟩ := hT i st e hst hd
  exact hU e info he hfil k w hw hwd

theorem parkedUnbound_mk2 (s : Sys) (tabs' : List (Nat × TabState))
    (unmatched' : List (Nat × UnmatchedInfo)) (d : Nat)
    (hT : ∀ j v x, (j, v) ∈ tabs' → v.downloadId = some x →
          x = d ∨ ∃ k w, (k, w) ∈ s.tabs ∧ w.downloadId = some x)
    (hU : ∀ e info, (e, info) ∈ unmatched' → info.filename = "" →
          e ≠ d ∧ ∀ k w, (k, w) ∈ s.tabs → w.downloadId ≠ some e) :
    ParkedUnbound ⟨tabs', unmatched'⟩ := by
  intro e info he hfil i st hst hd
  rcases hT i st e hst hd with h0 | ⟨k, w, hw, hwd⟩
  · exact (hU e info he hfil).1 h0
  · exact (hU e info he hfil).2 k w hw hwd

theorem unbound_of_find?_none {tabs : List (Nat × TabState)} {d : Nat}
    (h : tabs.find? (fun p => p.2.downloadId == some d) = none) :
    ∀ i st, (i, st) ∈ tabs → st.downloadId ≠ some d := by
  intro i st hm hd
  have := List.find?_eq_none.mp h (i, st) hm
  simp at this
  exact this hd

theorem nokey_of_mapGet_none {α : Type} {m : List (Nat × α)} {d : Nat}
    (h : mapGet m d = none) : ∀ info, (d, info) ∉ m := by
  intro info hmem
  unfold mapGet at h
  rcases Option.map_eq_none.mp h with hfind
  have := List.find?_eq_none.mp hfind (d, info) hmem
  simp at this

theorem keysNodup_map_updOne {tabs : List (Nat × TabState)} (h : KeysNodup tabs)
    (tid d : Nat) : KeysNodup (tabs.map (updOne tid d)) := by
  unfold KeysNodup at h ⊢
  rw [List.map_map]
  have he : (tabs.map (Prod.fst ∘ updOne tid d)) = tabs.map Prod.fst := by
    apply List.map_congr_left
    intro p _
    by_cases hpt : p.1 = tid
    · simp [Function.comp, updOne, hpt]
    · simp [Function.comp, updOne, hpt]
  rw [he]
  exact h

theorem keysNodup_updateTabState {tabs : List (Nat × TabState)} (h : KeysNodup tabs)
    (tabId : Nat) (stt det : String) : KeysNodup (updateTabState tabs tabId stt det) := by
  unfold updateTabState
  exact keysNodup_mapSet h _ _

theorem boundInj_updateTabState {tabs : List (Nat × TabState)} {tabId : Nat}
    {stt det : String} (hbi : BoundInj tabs) :
    BoundInj (updateTabState tabs tabId stt det) := by
  intro i j sti stj x hi hj hdi hdj
  obtain ⟨wi, hwi, hdi2⟩ := mem_updateTabState_bound hi hdi
  obtain ⟨wj, hwj, hdj2⟩ := mem_updateTabState_bound hj hdj
  exact hbi i j wi wj x hwi hwj hdi2 hdj2

/-- Packaging for the non-binding steps: the new registry only carries
bound ids that existed on the same key before, and the new queue is a
subset of the old one. -/
theorem sysInvTabsSide (s : Sys) (T : List (Nat × TabState))
    (U : List (Nat × UnmatchedInfo))
    (hbi : BoundInj s.tabs) (hnz : NoZeroBound s.tabs) (hpu : ParkedUnbound s)
    (hT : ∀ j v x, (j, v) ∈ T → v.downloadId = some x →
          ∃ w, (j, w) ∈ s.tabs ∧ w.downloadId = some x)
    (hU : ∀ e info, (e, info) ∈ U → (e, info) ∈ s.unmatched) :
    BoundInj T ∧ ParkedUnbound ⟨T, U⟩ ∧ NoZeroBound T := by
  obtain ⟨h3, h5⟩ := invTabs_of_boundPreserving hbi hnz hT
  refine ⟨h3, ?_, h5⟩
  refine parkedUnbound_mk s T U (fun j v x hm hd => ?_) (fun e info he hfil => ?_)
  · obtain ⟨w, hw, hwd⟩ := hT j v x hm hd
    exact ⟨j, w, hw, hwd⟩
  · exact hpu e info (hU e info he) hfil

theorem mem_pollApply_bound {tabs : List (Nat × TabState)} {tabId : Nat}
    {res : Option PollRes} {j : Nat} {v : TabState} {x : Nat}
    (h : (j, v) ∈ pollApply tabs tabId res) (hd : v.downloadId = some x) :
    ∃ w, (j, w) ∈ tabs ∧ w.downloadId = some x := by
  cases res with
  | none => exact ⟨v, h, hd⟩
  | some r =>
      cases hg : mapGet tabs tabId with
      | none =>
          rw [show pollApply tabs tabId (some r) = tabs from by simp [pollApply, hg]] at h
          exact ⟨v, h, hd⟩
      | some st0 =>
          have hmem0 := mem_of_mapGet_eq_some hg
          by_cases h1 : r.status = "downloading"
          · rw [show pollApply tabs tabId (some r) =
                mapSet tabs tabId (pollDownloadingRec st0 r.progress) from by
              simp [pollApply, hg, h1]] at h
            rcases mem_mapSet_elim h with ⟨rfl, rfl⟩ | ⟨hin, _⟩
            · exact ⟨st0, hmem0, hd⟩
            · exact ⟨v, hin, hd⟩
          · by_cases h2 : r.status = "preparing"
            · by_cases h3 : (st0.hadProgressBar && !jsTruthyId st0.downloadId) = true
              · rw [show pollApply tabs tabId (some r) =
                    mapSet tabs tabId (pollPreparingRec st0 r.progress) from by
                  simp [pollApply, hg, h1, h2, h3]] at h
                rcases mem_mapSet_elim h with ⟨rfl, rfl⟩ | ⟨hin, _⟩
                · exact ⟨st0, hmem0, hd⟩
                · exact ⟨v, hin, hd⟩
              · rw [show pollApply tabs tabId (some r) =
                    mapSet tabs tabId (pollProgressRec st0 r.progress) from by
                  simp [pollApply, hg, h1, h2, h3]] at h
                rcases mem_mapSet_elim h with ⟨rfl, rfl⟩ | ⟨hin, _⟩
                · exact ⟨st0, hmem0, hd⟩
                · exact ⟨v, hin, hd⟩
            · rw [show pollApply tabs tabId (some r) =
                  mapSet tabs tabId (pollProgressRec st0 r.progress) from by
                simp [pollApply, hg, h1, h2]] at h
              rcases mem_mapSet_elim h with ⟨rfl, rfl⟩ | ⟨hin, _⟩
              · exact ⟨st0, hmem0, hd⟩
              · exact ⟨v, hin, hd⟩

theorem keysNodup_pollApply {tabs : List (Nat × TabState)} (h : KeysNodup tabs)
    (tabId : Nat) (res : Option PollRes) : KeysNodup (pollApply tabs tabId res) := by
  cases res with
  | none => exact h
  | some r =>
      cases hg : mapGet tabs tabId with
      | none => simpa [pollApply, hg] using h
      | some st0 =>
          by_cases h1 : r.status = "downloading"
          · rw [show pollApply tabs tabId (some r) =
                mapSet tabs tabId (pollDownloadingRec st0 r.progress) from by
              simp [pollApply, hg, h1]]
            exact keysNodup_mapSet h _ _
          · by_cases h2 : r.status = "preparing"
            · by_cases h3 : (st0.hadProgressBar && !jsTruthyId st0.downloadId) = true
              · rw [show pollApply tabs tabId (some r) =
                    mapSet tabs tabId (pollPreparingRec st0 r.progress) from by
                  simp [pollApply, hg, h1, h2, h3]]
                exact keysNodup_mapSet h _ _
              · rw [show pollApply tabs tabId (some r) =
                    mapSet tabs tabId (pollProgressRec st0 r.progress) from by
                  simp [pollApply, hg, h1, h2, h3]]
                exact keysNodup_mapSet h _ _
            · rw [show pollApply tabs tabId (some r) =
                  mapSet tabs tabId (pollProgressRec st0 r.progress) from by
                simp [pollApply, hg, h1, h2]]
              exact keysNodup_mapSet h _ _

theorem invStep_startTask (s : Sys) (hinv : SysInv s) (tabId : Nat)
    (url title : String) (time : Nat) :
    SysInv (stepF s (Ev.startTask tabId url title time)) := by
  obtain ⟨hk1, hk2, hbi, hpu, hnz, hup⟩ := hinv
  have hT : ∀ j v x,
      (j, v) ∈ mapSet s.tabs tabId (newTaskRecord url title time "処理中...") →
      v.downloadId = some x → ∃ w, (j, w) ∈ s.tabs ∧ w.downloadId = some x := by
    intro j v x hm hd
    rcases mem_mapSet_elim hm with ⟨_, hv⟩ | ⟨hin, _⟩
    · rw [hv] at hd
      simp [newTaskRecord] at hd
    · exact ⟨v, hin, hd⟩
  obtain ⟨h3, h4, h5⟩ := sysInvTabsSide s
    (mapSet s.tabs tabId (newTaskRecord url title time "処理中...")) s.unmatched
    hbi hnz hpu hT (fun e info he => he)
  exact ⟨keysNodup_mapSet hk1 _ _, hk2, h3, h4, h5, hup⟩

theorem invStep_retryTask (s : Sys) (hinv : SysInv s) (tabId : Nat)
    (url title : String) (time : Nat) :
    SysInv (stepF s (Ev.retryTask tabId url title time)) := by
  obtain ⟨hk1, hk2, hbi, hpu, hnz, hup⟩ := hinv
  have hT : ∀ j v x,
      (j, v) ∈ mapSet s.tabs tabId (newTaskRecord url title time "ダウンロード開始...") →
      v.downloadId = some x → ∃ w, (j, w) ∈ s.tabs ∧ w.downloadId = some x := by
    intro j v x hm hd
    rcases mem_mapSet_elim hm with ⟨_, hv⟩ | ⟨hin, _⟩
    · rw [hv] at hd
      simp [newTaskRecord] at hd
    · exact ⟨v, hin, hd⟩
  obtain ⟨h3, h4, h5⟩ := sysInvTabsSide s
    (mapSet s.tabs tabId (newTaskRecord url title time "ダウンロード開始...")) s.unmatched
    hbi hnz hpu hT (fun e info he => he)
  exact ⟨keysNodup_mapSet hk1 _ _, hk2, h3, h4, h5, hup⟩

theorem invStep_poll (s : Sys) (hinv : SysInv s) (tabId : Nat) (res : Option PollRes) :
    SysInv (stepF s (Ev.poll tabId res)) := by
  obtain ⟨hk1, hk2, hbi, hpu, hnz, hup⟩ := hinv
  obtain ⟨h3, h4, h5⟩ := sysInvTabsSide s (pollApply s.tabs tabId res) s.unmatched
    hbi hnz hpu (fun j v x hm hd => mem_pollApply_bound hm hd) (fun e info he => he)
  exact ⟨keysNodup_pollApply hk1 _ _, hk2, h3, h4, h5, hup⟩

theorem invStep_clicked (s : Sys) (hinv : SysInv s) (tabId : Nat) :
    SysInv (stepF s (Ev.clicked tabId)) := by
  obtain ⟨hk1, hk2, hbi, hpu, hnz, hup⟩ := hinv
  have hT : ∀ j v x,
      (j, v) ∈ mapSet s.tabs tabId (clickedRec ((mapGet s.tabs tabId).getD defaultRecord)) →
      v.downloadId = some x → ∃ w, (j, w) ∈ s.tabs ∧ w.downloadId = some x := by
    intro j v x hm hd
    rcases mem_mapSet_elim hm with ⟨hj, hv⟩ | ⟨hin, _⟩
    · rw [hv] at hd
      cases hg : mapGet s.tabs tabId with
      | none =>
          rw [hg] at hd
          simp [clickedRec, defaultRecord] at hd
      | some w =>
          rw [hg] at hd
          subst hj
          exact ⟨w, mem_of_mapGet_eq_some hg, by simpa [clickedRec] using hd⟩
    · exact ⟨v, hin, hd⟩
  obtain ⟨h3, h4, h5⟩ := sysInvTabsSide s
    (mapSet s.tabs tabId (clickedRec ((mapGet s.tabs tabId).getD defaultRecord))) s.unmatched
    hbi hnz hpu hT (fun e info he => he)
  exact ⟨keysNodup_mapSet hk1 _ _, hk2, h3, h4, h5, hup⟩

theorem invStep_progressMsg (s : Sys) (hinv : SysInv s) (tabId : Nat) (p : Int) :
    SysInv (stepF s (Ev.progressMsg tabId p)) := by
  obtain ⟨hk1, hk2, hbi, hpu, hnz, hup⟩ := hinv
  cases hg : mapGet s.tabs tabId with
  | some st0 =>
      have hstep : stepF s (Ev.progressMsg tabId p) =
          ⟨mapSet s.tabs tabId (progressMsgRec st0 p), s.unmatched⟩ := by
        simp [stepF, hg]
      rw [hstep]
      have hT : ∀ j v x, (j, v) ∈ mapSet s.tabs tabId (progressMsgRec st0 p) →
          v.downloadId = some x → ∃ w, (j, w) ∈ s.tabs ∧ w.downloadId = some x := by
        intro j v x hm hd
        rcases mem_mapSet_elim hm with ⟨hj, hv⟩ | ⟨hin, _⟩
        · subst hj
          rw [hv] at hd
          exact ⟨st0, mem_of_mapGet_eq_some hg, by simpa [progressMsgRec] using hd⟩
        · exact ⟨v, hin, hd⟩
      obtain ⟨h3, h4, h5⟩ := sysInvTabsSide s (mapSet s.tabs tabId (progressMsgRec st0 p))
        s.unmatched hbi hnz hpu hT (fun e info he => he)
      exact ⟨keysNodup_mapSet hk1 _ _, hk2, h3, h4, h5, hup⟩
  | none =>
      have hstep : stepF s (Ev.progressMsg tabId p) =
          ⟨updateTabState s.tabs tabId "in-progress" (toString p ++ "%"), s.unmatched⟩ := by
        simp [stepF, hg]
      rw [hstep]
      obtain ⟨h3, h4, h5⟩ := sysInvTabsSide s
        (updateTabState s.tabs tabId "in-progress" (toString p ++ "%")) s.unmatched
        hbi hnz hpu (fun j v x hm hd => mem_updateTabState_bound hm hd) (fun e info he => he)
      exact ⟨keysNodup_updateTabState hk1 _ _ _, hk2, h3, h4, h5, hup⟩

theorem invStep_errorMsg (s : Sys) (hinv : SysInv s) (tabId : Nat) (err : String) :
    SysInv (stepF s (Ev.errorMsg tabId err)) := by
  obtain ⟨hk1, hk2, hbi, hpu, hnz, hup⟩ := hinv
  obtain ⟨h3, h4, h5⟩ := sysInvTabsSide s (updateTabState s.tabs tabId "error" err)
    s.unmatched hbi hnz hpu (fun j v x hm hd => mem_updateTabState_bound hm hd)
    (fun e info he => he)
  exact ⟨keysNodup_updateTabState hk1 _ _ _, hk2, h3, h4, h5, hup⟩

theorem invStep_clearCompleted (s : Sys) (hinv : SysInv s) :
    SysInv (stepF s Ev.clearCompleted) := by
  obtain ⟨hk1, hk2, hbi, hpu, hnz, hup⟩ := hinv
  have hT : ∀ j v x, (j, v) ∈ s.tabs.filter (fun p => p.2.status ≠ "complete") →
      v.downloadId = some x → ∃ w, (j, w) ∈ s.tabs ∧ w.downloadId = some x :=
    fun j v x hm hd => ⟨v, (List.mem_filter.mp hm).1, hd⟩
  obtain ⟨h3, h4, h5⟩ := sysInvTabsSide s
    (s.tabs.filter (fun p => p.2.status ≠ "complete")) s.unmatched
    hbi hnz hpu hT (fun e info he => he)
  exact ⟨keysNodup_filter hk1 _, hk2, h3, h4, h5, hup⟩

theorem invStep_created (s : Sys) (hinv : SysInv s) (d : Nat) (filename url : String)
    (hok : okEvent s (Ev.created d filename url)) :
    SysInv (stepF s (Ev.created d filename url)) := by
  obtain ⟨hk1, hk2, hbi, hpu, hnz, hup⟩ := hinv
  obtain ⟨hd0, hunb, hnod⟩ := hok
  have hnokey := nokey_of_mapGet_none hnod
  by_cases hf : filename = ""
  · have hstep : stepF s (Ev.created d filename url) =
        ⟨s.tabs, mapSet s.unmatched d ⟨"", url⟩⟩ := by
      simp [stepF, hf]
    rw [hstep]
    refine ⟨hk1, keysNodup_mapSet hk2 _ _, hbi, ?_, hnz, ?_⟩
    · intro e info he hfil i st hst hd
      rcases mem_mapSet_elim he with ⟨hed, _⟩ | ⟨hin, _⟩
      · subst hed
        exact hunb i st hst hd
      · exact hpu e info hin hfil i st hst hd
    · intro info hmem
      rcases mem_mapSet_elim hmem with ⟨h0d, _⟩ | ⟨hin, _⟩
      · exact hd0 h0d.symm
      · exact hup info hin
  · by_cases hr : (matchDownloadToTab d filename s.tabs).1 = true
    · obtain ⟨tid, st0, hmem0, hcand0, hres⟩ := matchResult_of_true hr
      have hstep : stepF s (Ev.created d filename url) =
          ⟨s.tabs.map (updOne tid d), s.unmatched⟩ := by
        simp [stepF, hf, hr, hres]
      rw [hstep]
      refine ⟨keysNodup_map_updOne hk1 tid d, hk2, boundInj_map_updOne hbi hunb, ?_,
        noZero_map_updOne hnz hd0, hup⟩
      refine parkedUnbound_mk2 s _ s.unmatched d
        (fun j v x hm hd => ?_) (fun e info he hfil => ?_)
      · rcases mem_map_updOne_bound hm hd with h | ⟨w, hw, hwd⟩
        · exact Or.inl h
        · exact Or.inr ⟨j, w, hw, hwd⟩
      · exact ⟨fun hed => hnokey info (hed ▸ he),
          fun k w hw hwd => hpu e info he hfil k w hw hwd⟩
    · have hres := matchResult_of_not_true hr
      have hstep : stepF s (Ev.created d filename url) =
          ⟨s.tabs, mapSet s.unmatched d ⟨filename, url⟩⟩ := by
        simp [stepF, hf, hr, hres]
      rw [hstep]
      refine ⟨hk1, keysNodup_mapSet hk2 _ _, hbi, ?_, hnz, ?_⟩
      · intro e info he hfil i st hst hd
        rcases mem_mapSet_elim he with ⟨hed, hinfo⟩ | ⟨hin, _⟩
        · rw [hinfo] at hfil
          exact absurd hfil hf
        · exact hpu e info hin hfil i st hst hd
      · intro info hmem
        rcases mem_mapSet_elim hmem with ⟨h0d, _⟩ | ⟨hin, _⟩
        · exact hd0 h0d.symm
        · exact hup info hin

theorem invStep_nameDetermined (s : Sys) (hinv : SysInv s) (d : Nat) (name : String) :
    SysInv (stepF s (Ev.nameDetermined d name)) := by
  obtain ⟨hk1, hk2, hbi, hpu, hnz, hup⟩ := hinv
  have hinvS : SysInv s := ⟨hk1, hk2, hbi, hpu, hnz, hup⟩
  by_cases hn : name = ""
  · have hstep : stepF s (Ev.nameDetermined d name) = s := by simp [stepF, hn]
    rw [hstep]
    exact hinvS
  · cases hum : mapGet s.unmatched d with
    | none =>
        have hstep : stepF s (Ev.nameDetermined d name) = s := by simp [stepF, hn, hum]
        rw [hstep]
        exact hinvS
    | some info =>
        by_cases hif : info.filename = ""
        case neg =>
          have hstep : stepF s (Ev.nameDetermined d name) = s := by
            simp [stepF, hn, hum, hif]
          rw [hstep]
          exact hinvS
        case pos =>
          have hinfomem : (d, info) ∈ s.unmatched := mem_of_mapGet_eq_some hum
          have hd0 : d ≠ 0 := fun h0 => hup info (h0 ▸ hinfomem)
          have hunb : ∀ i st, (i, st) ∈ s.tabs → st.downloadId ≠ some d :=
            fun i st hst => hpu d info hinfomem hif i st hst
          by_cases hr : (matchDownloadToTab d name s.tabs).1 = true
          · obtain ⟨tid, st0, hmem0, hcand0, hres⟩ := matchResult_of_true hr
            have hstep : stepF s (Ev.nameDetermined d name) =
                ⟨s.tabs.map (updOne tid d),
                  mapDelete (mapSet s.unmatched d ⟨name, info.url⟩) d⟩ := by
              simp [stepF, hn, hum, hif, hr, hres]
            rw [hstep]
            refine ⟨keysNodup_map_updOne hk1 tid d,
              keysNodup_mapDelete (keysNodup_mapSet hk2 _ _) _,
              boundInj_map_updOne hbi hunb, ?_, noZero_map_updOne hnz hd0, ?_⟩
            · refine parkedUnbound_mk2 s _ _ d (fun j v x hm hd => ?_)
                (fun e info2 he hfil => ?_)
              · rcases mem_map_updOne_bound hm hd with h | ⟨w, hw, hwd⟩
                · exact Or.inl h
                · exact Or.inr ⟨j, w, hw, hwd⟩
              · obtain ⟨hms, hed⟩ := mem_mapDelete_elim he
                rcases mem_mapSet_elim hms with ⟨hed2, _⟩ | ⟨hin, _⟩
                · exact absurd hed2 hed
                · exact ⟨hed, fun k w hw hwd => hpu e info2 hin hfil k w hw hwd⟩
            · intro info2 hmem
              obtain ⟨hms, h0d⟩ := mem_mapDelete_elim hmem
              rcases mem_mapSet_elim hms with ⟨h0d2, _⟩ | ⟨hin, _⟩
              · exact h0d h0d2
              · exact hup info2 hin
          · have hres := matchResult_of_not_true hr
            have hstep : stepF s (Ev.nameDetermined d name) =
                ⟨s.tabs, mapSet s.unmatched d ⟨name, info.url⟩⟩ := by
              simp [stepF, hn, hum, hif, hr, hres]
            rw [hstep]
            refine ⟨hk1, keysNodup_mapSet hk2 _ _, hbi, ?_, hnz, ?_⟩
            · intro e info2 he hfil i st hst hd
              rcases mem_mapSet_elim he with ⟨hed, hinfo2⟩ | ⟨hin, _⟩
              · rw [hinfo2] at hfil
                exact absurd hfil hn
              · exact hpu e info2 hin hfil i st hst hd
            · intro info2 hmem
              rcases mem_mapSet_elim hmem with ⟨h0d, _⟩ | ⟨hin, _⟩
              · exact hd0 h0d.symm
              · exact hup info2 hin

theorem invStep_terminal (s : Sys) (hinv : SysInv s) (d : Nat) (cur err : String) :
    SysInv (stepF s (Ev.terminal d cur err)) := by
  obtain ⟨hk1, hk2, hbi, hpu, hnz, hup⟩ := hinv
  have hinvS : SysInv s := ⟨hk1, hk2, hbi, hpu, hnz, hup⟩
  have hUdel : ∀ e info, (e, info) ∈ mapDelete s.unmatched d → (e, info) ∈ s.unmatched :=
    fun e info he => (mem_mapDelete_elim he).1
  cases hfind : s.tabs.find? (fun p => p.2.downloadId == some d) with
  | some p =>
      by_cases hc1 : cur = "complete"
      · have hstep : stepF s (Ev.terminal d cur err) =
            ⟨updateTabState s.tabs p.1 "complete" "", mapDelete s.unmatched d⟩ := by
          simp [stepF, hfind, hc1]
        rw [hstep]
        obtain ⟨h3, h4, h5⟩ := sysInvTabsSide s (updateTabState s.tabs p.1 "complete" "")
          (mapDelete s.unmatched d) hbi hnz hpu
          (fun j v x hm hd => mem_updateTabState_bound hm hd) hUdel
        exact ⟨keysNodup_updateTabState hk1 _ _ _, keysNodup_mapDelete hk2 _, h3, h4, h5,
          fun info hmem => hup info (hUdel 0 info hmem)⟩
      · by_cases hc2 : cur = "interrupted"
        · have hstep : stepF s (Ev.terminal d cur err) =
              ⟨updateTabState s.tabs p.1 "error" (if err = "" then "中断" else err),
                mapDelete s.unmatched d⟩ := by
            simp [stepF, hfind, hc1, hc2]
          rw [hstep]
          obtain ⟨h3, h4, h5⟩ := sysInvTabsSide s
            (updateTabState s.tabs p.1 "error" (if err = "" then "中断" else err))
            (mapDelete s.unmatched d) hbi hnz hpu
            (fun j v x hm hd => mem_updateTabState_bound hm hd) hUdel
          exact ⟨keysNodup_updateTabState hk1 _ _ _, keysNodup_mapDelete hk2 _, h3, h4, h5,
            fun info hmem => hup info (hUdel 0 info hmem)⟩
        · have hstep : stepF s (Ev.terminal d cur err) = s := by
            simp [stepF, hfind, hc1, hc2]
          rw [hstep]
          exact hinvS
  | none =>
      by_cases hc1 : cur = "complete"
      case neg =>
        have hstep : stepF s (Ev.terminal d cur err) = s := by simp [stepF, hfind, hc1]
        rw [hstep]
        exact hinvS
      case pos =>
        cases hum : mapGet s.unmatched d with
        | none =>
            have hstep : stepF s (Ev.terminal d cur err) = s := by
              simp [stepF, hfind, hc1, hum]
            rw [hstep]
            exact hinvS
        | some info =>
            by_cases hif : info.filename = ""
            · have hstep : stepF s (Ev.terminal d cur err) = s := by
                simp [stepF, hfind, hc1, hum, hif]
              rw [hstep]
              exact hinvS
            · have hinfomem : (d, info) ∈ s.unmatched := mem_of_mapGet_eq_some hum
              have hd0 : d ≠ 0 := fun h0 => hup info (h0 ▸ hinfomem)
              have hunb := unbound_of_find?_none hfind
              have hU2 : ∀ e info2, (e, info2) ∈ mapDelete s.unmatched d →
                  info2.filename = "" →
                  e ≠ d ∧ ∀ k w, (k, w) ∈ s.tabs → w.downloadId ≠ some e := by
                intro e info2 he hfil
                obtain ⟨hin, hed⟩ := mem_mapDelete_elim he
                exact ⟨hed, fun k w hw hwd => hpu e info2 hin hfil k w hw hwd⟩
              by_cases hr : (matchDownloadToTab d info.filename s.tabs).1 = true
              · obtain ⟨tid, st0, hmem0, hcand0, hres⟩ := matchResult_of_true hr
                cases hq : (s.tabs.map (updOne tid d)).find?
                    (fun p => p.2.downloadId == some d) with
                | some q =>
                    have hstep : stepF s (Ev.terminal d cur err) =
                        ⟨updateTabState (s.tabs.map (updOne tid d)) q.1 "complete" "",
                          mapDelete s.unmatched d⟩ := by
                      simp [stepF, hfind, hc1, hum, hif, hr, hres, hq]
                    rw [hstep]
                    have hbi2 := @boundInj_map_updOne s.tabs tid d hbi hunb
                    have hT2 : ∀ j v x,
                        (j, v) ∈ updateTabState (s.tabs.map (updOne tid d)) q.1 "complete" "" →
                        v.downloadId = some x →
                        x = d ∨ ∃ k w, (k, w) ∈ s.tabs ∧ w.downloadId = some x := by
                      intro j v x hm hd
                      obtain ⟨w, hw, hwd⟩ := mem_updateTabState_bound hm hd
                      rcases mem_map_updOne_bound hw hwd with h | ⟨w2, hw2, hwd2⟩
                      · exact Or.inl h
                      · exact Or.inr ⟨j, w2, hw2, hwd2⟩
                    refine ⟨keysNodup_updateTabState (keysNodup_map_updOne hk1 tid d) _ _ _,
                      keysNodup_mapDelete hk2 _,
                      boundInj_updateTabState hbi2, ?_, ?_, ?_⟩
                    · exact parkedUnbound_mk2 s _ _ d hT2 hU2
                    · intro i st hm h0
                      rcases hT2 i st 0 hm h0 with h | ⟨k, w, hw, hwd⟩
                      · exact hd0 h.symm
                      · exact hnz k w hw hwd
                    · exact fun info2 hmem => hup info2 (hUdel 0 info2 hmem)
                | none =>
                    have hstep : stepF s (Ev.terminal d cur err) =
                        ⟨s.tabs.map (updOne tid d), mapDelete s.unmatched d⟩ := by
                      simp [stepF, hfind, hc1, hum, hif, hr, hres, hq]
                    rw [hstep]
                    refine ⟨keysNodup_map_updOne hk1 tid d, keysNodup_mapDelete hk2 _,
                      boundInj_map_updOne hbi hunb, ?_, noZero_map_updOne hnz hd0, ?_⟩
                    · refine parkedUnbound_mk2 s _ _ d (fun j v x hm hd => ?_) hU2
                      rcases mem_map_updOne_bound hm hd with h | ⟨w, hw, hwd⟩
                      · exact Or.inl h
                      · exact Or.inr ⟨j, w, hw, hwd⟩
                    · exact fun info2 hmem => hup info2 (hUdel 0 info2 hmem)
              · have hres := matchResult_of_not_true hr
                have hstep : stepF s (Ev.terminal d cur err) =
                    ⟨s.tabs, mapDelete s.unmatched d⟩ := by
                  simp [stepF, hfind, hc1, hum, hif, hr, hres]
                rw [hstep]
                obtain ⟨h3, h4, h5⟩ := sysInvTabsSide s s.tabs (mapDelete s.unmatched d)
                  hbi hnz hpu (fun j v x hm hd => ⟨v, hm, hd⟩) hUdel
                exact ⟨hk1, keysNodup_mapDelete hk2 _, h3, h4, h5,
                  fun info2 hmem => hup info2 (hUdel 0 info2 hmem)⟩

/-- Every environment-respecting handler step preserves the state
invariant. -/
theorem sysInv_step {s : Sys} {e : Ev} (hinv : SysInv s) (hok : okEvent s e) :
    SysInv (stepF s e) := by
  cases e with
  | startTask tabId url title time => exact invStep_startTask s hinv tabId url title time
  | retryTask tabId url title time => exact invStep_retryTask s hinv tabId url title time
  | created d filename url => exact invStep_created s hinv d filename url hok
  | nameDetermined d name => exact invStep_nameDetermined s hinv d name
  | terminal d cur err => exact invStep_terminal s hinv d cur err
  | poll tabId res => exact invStep_poll s hinv tabId res
  | clicked tabId => exact invStep_clicked s hinv tabId
  | progressMsg tabId p => exact invStep_progressMsg s hinv tabId p
  | errorMsg tabId msg => exact invStep_errorMsg s hinv tabId msg
  | clearCompleted => exact invStep_clearCompleted s hinv

/-- Every reachable worker state satisfies the invariant. -/
theorem reachable_inv {s : Sys} (h : Reachable s) : SysInv s := by
  induction h with
  | init =>
      refine ⟨List.nodup_nil, List.nodup_nil, ?_, ?_, ?_, ?_⟩
      · intro i j sti stj x hi
        cases hi
      · intro e info he
        cases he
      · intro i st hm
        cases hm
      · intro info hmem
        cases hmem
  | step ha hok ih => exact sysInv_step ih hok

/-- If a key was present before a map-map over `updOne`, it is present
after (with the updated value). -/
theorem key_mem_map_updOne {tabs : List (Nat × TabState)} {i : Nat} {st : TabState}
    (h : (i, st) ∈ tabs) (tid d : Nat) :
    ∃ w, (i, w) ∈ tabs.map (updOne tid d) := by
  by_cases hit : i = tid
  · refine ⟨{ st with downloadId := some d }, ?_⟩
    have he : (i, { st with downloadId := some d }) = updOne tid d (i, st) := by
      simp [updOne, hit]
    rw [he]
    exact List.mem_map_of_mem _ h
  · refine ⟨st, ?_⟩
    have he : ((i : Nat), st) = updOne tid d (i, st) := by
      simp [updOne, hit]
    rw [he]
    exact List.mem_map_of_mem _ h

/-- `updateTabState` never changes the `downloadId` of a key that was
already present. -/
theorem updateTabState_no_dId_change {tabs : List (Nat × TabState)} {tabId : Nat}
    {stt det : String} {i : Nat} {st st' : TabState} (hk : KeysNodup tabs)
    (hmem : (i, st) ∈ tabs) (hmem' : (i, st') ∈ updateTabState tabs tabId stt det) :
    st'.downloadId = st.downloadId := by
  rcases mem_updateTabState_elim hmem' with ⟨hin, _⟩ | ⟨hieq, _, hdid⟩
  · rw [mem_unique_of_keysNodup hk hin hmem]
  · subst hieq
    rw [mapGet_eq_some_of_mem hk hmem] at hdid
    exact hdid

/-- Change analysis of one `matchDownloadToTab` call: if the value stored
at a key changes its `downloadId`, the old value was an unbound
in-progress candidate and the new `downloadId` is the matched download. -/
theorem matchResult_change {d : Nat} {fn : String} {tabs : List (Nat × TabState)}
    {i : Nat} {st st' : TabState} (hk : KeysNodup tabs) (hnz : NoZeroBound tabs)
    (hmem : (i, st) ∈ tabs) (hmem' : (i, st') ∈ (matchDownloadToTab d fn tabs).2)
    (hch : st'.downloadId ≠ st.downloadId) :
    st.status = "in-progress" ∧ st.downloadId = none ∧ st'.downloadId = some d := by
  by_cases hr : (matchDownloadToTab d fn tabs).1 = true
  · obtain ⟨tid, st0, hmem0, hcand0, hres⟩ := matchResult_of_true hr
    rw [hres] at hmem'
    rcases mem_map_updOne_elim hmem' with ⟨v0, hv0, _, hveq⟩ | ⟨v0, hv0, hieq, hveq⟩
    · have hv0st : v0 = st := mem_unique_of_keysNodup hk hv0 hmem
      rw [hveq, hv0st] at hch
      exact absurd rfl hch
    · rw [← hieq] at hv0 hmem0
      have hst0st : st0 = st := mem_unique_of_keysNodup hk hmem0 hmem
      rw [hst0st] at hcand0
      unfold isCandidate at hcand0
      rw [Bool.and_eq_true] at hcand0
      obtain ⟨hstat, hunb2⟩ := hcand0
      have hstat2 : st.status = "in-progress" := by simpa using hstat
      have hnone : st.downloadId = none := by
        cases hdid : st.downloadId with
        | none => rfl
        | some n =>
            rw [hdid] at hunb2
            simp [jsTruthyId] at hunb2
            rw [hunb2] at hdid
            exact absurd hdid (hnz i st hmem)
      refine ⟨hstat2, hnone, ?_⟩
      rw [hveq]
  · have hres := matchResult_of_not_true hr
    rw [hres] at hmem'
    have : st' = st := mem_unique_of_keysNodup hk hmem' hmem
    rw [this] at hch
    exact absurd rfl hch

/-- C1: on every reachable state, binding is a partial injection kept by
every matching step: no two distinct tasks hold the same bound download
id (before or after the step), and whenever a matching step changes the
stored `downloadId` of a task, the old record was in state `in-progress`
with a null (`none`) `downloadId` and the new value is exactly the
event's own download id — so a non-null binding is never rebound to a
different value, and binds target only unbound in-progress tasks. -/
theorem C1_binding_invariant (s : Sys) (e : Ev) (hs : Reachable s)
    (hok : okEvent s e) (hme : isMatchingEvent e) :
    BoundInj s.tabs ∧ BoundInj (stepF s e).tabs ∧
    ∀ i st st', (i, st) ∈ s.tabs → (i, st') ∈ (stepF s e).tabs →
      st'.downloadId ≠ st.downloadId →
      st.status = "in-progress" ∧ st.downloadId = none ∧
        ∃ dd, evDownloadId e = some dd ∧ st'.downloadId = some dd := by
  obtain ⟨hk1, hk2, hbi, hpu, hnz, hup⟩ := reachable_inv hs
  have hafter := sysInv_step (⟨hk1, hk2, hbi, hpu, hnz, hup⟩ : SysInv s) hok
  refine ⟨hbi, hafter.2.2.1, ?_⟩
  intro i st st' hmem hmem' hch
  cases e with
  | startTask tabId url title time => exact hme.elim
  | retryTask tabId url title time => exact hme.elim
  | poll tabId res => exact hme.elim
  | clicked tabId => exact hme.elim
  | progressMsg tabId p => exact hme.elim
  | errorMsg tabId msg => exact hme.elim
  | clearCompleted => exact hme.elim
  | created d filename url =>
      by_cases hf : filename = ""
      · have htabs : (stepF s (Ev.created d filename url)).tabs = s.tabs := by
          simp [stepF, hf]
        rw [htabs] at hmem'
        exact absurd (by rw [mem_unique_of_keysNodup hk1 hmem' hmem]) hch
      · have htabs : (stepF s (Ev.created d filename url)).tabs =
            (matchDownloadToTab d filename s.tabs).2 := by
          by_cases hr : (matchDownloadToTab d filename s.tabs).1 = true <;>
            simp [stepF, hf, hr]
        rw [htabs] at hmem'
        obtain ⟨h1, h2, h3⟩ := matchResult_change hk1 hnz hmem hmem' hch
        exact ⟨h1, h2, d, rfl, h3⟩
  | nameDetermined d name =>
      by_cases hn : name = ""
      · have htabs : (stepF s (Ev.nameDetermined d name)).tabs = s.tabs := by
          simp [stepF, hn]
        rw [htabs] at hmem'
        exact absurd (by rw [mem_unique_of_keysNodup hk1 hmem' hmem]) hch
      · cases hum : mapGet s.unmatched d with
        | none =>
            have htabs : (stepF s (Ev.nameDetermined d name)).tabs = s.tabs := by
              simp [stepF, hn, hum]
            rw [htabs] at hmem'
            exact absurd (by rw [mem_unique_of_keysNodup hk1 hmem' hmem]) hch
        | some info =>
            by_cases hif : info.filename = ""
            · have htabs : (stepF s (Ev.nameDetermined d name)).tabs =
                  (matchDownloadToTab d name s.tabs).2 := by
                by_cases hr : (matchDownloadToTab d name s.tabs).1 = true <;>
                  simp [stepF, hn, hum, hif, hr]
              rw [htabs] at hmem'
              obtain ⟨h1, h2, h3⟩ := matchResult_change hk1 hnz hmem hmem' hch
              exact ⟨h1, h2, d, rfl, h3⟩
            · have htabs : (stepF s (Ev.nameDetermined d name)).tabs = s.tabs := by
                simp [stepF, hn, hum, hif]
              rw [htabs] at hmem'
              exact absurd (by rw [mem_unique_of_keysNodup hk1 hmem' hmem]) hch
  | terminal d cur err =>
      cases hfind : s.tabs.find? (fun p => p.2.downloadId == some d) with
      | some p =>
          by_cases hc1 : cur = "complete"
          · have htabs : (stepF s (Ev.terminal d cur err)).tabs =
                updateTabState s.tabs p.1 "complete" "" := by
              simp [stepF, hfind, hc1]
            rw [htabs] at hmem'
            exact absurd (updateTabState_no_dId_change hk1 hmem hmem') hch
          · by_cases hc2 : cur = "interrupted"
            · have htabs : (stepF s (Ev.terminal d cur err)).tabs =
                  updateTabState s.tabs p.1 "error" (if err = "" then "中断" else err) := by
                simp [stepF, hfind, hc1, hc2]
              rw [htabs] at hmem'
              exact absurd (updateTabState_no_dId_change hk1 hmem hmem') hch
            · have htabs : (stepF s (Ev.terminal d cur err)).tabs = s.tabs := by
                simp [stepF, hfind, hc1, hc2]
              rw [htabs] at hmem'
              exact absurd (by rw [mem_unique_of_keysNodup hk1 hmem' hmem]) hch
      | none =>
          by_cases hc1 : cur = "complete"
          case neg =>
            have htabs : (stepF s (Ev.terminal d cur err)).tabs = s.tabs := by
              simp [stepF, hfind, hc1]
            rw [htabs] at hmem'
            exact absurd (by rw [mem_unique_of_keysNodup hk1 hmem' hmem]) hch
          case pos =>
            cases hum : mapGet s.unmatched d with
            | none =>
                have htabs : (stepF s (Ev.terminal d cur err)).tabs = s.tabs := by
                  simp [stepF, hfind, hc1, hum]
                rw [htabs] at hmem'
                exact absurd (by rw [mem_unique_of_keysNodup hk1 hmem' hmem]) hch
            | some info =>
                by_cases hif : info.filename = ""
                · have htabs : (stepF s (Ev.terminal d cur err)).tabs = s.tabs := by
                    simp [stepF, hfind, hc1, hum, hif]
                  rw [htabs] at hmem'
                  exact absurd (by rw [mem_unique_of_keysNodup hk1 hmem' hmem]) hch
                · by_cases hr : (matchDownloadToTab d info.filename s.tabs).1 = true
                  · obtain ⟨tid, st0, hmem0, hcand0, hres⟩ := matchResult_of_true hr
                    have hkmid : KeysNodup (s.tabs.map (updOne tid d)) :=
                      keysNodup_map_updOne hk1 tid d
                    obtain ⟨w, hwmem⟩ := key_mem_map_updOne hmem tid d
                    have hmidmem : (i, w) ∈ (matchDownloadToTab d info.filename s.tabs).2 := by
                      rw [hres]
                      exact hwmem
                    cases hq : (s.tabs.map (updOne tid d)).find?
                        (fun p => p.2.downloadId == some d) with
                    | some q =>
                        have htabs : (stepF s (Ev.terminal d cur err)).tabs =
                            updateTabState (s.tabs.map (updOne tid d)) q.1 "complete" "" := by
                          simp [stepF, hfind, hc1, hum, hif, hr, hres, hq]
                        rw [htabs] at hmem'
                        have hdid' : st'.downloadId = w.downloadId :=
                          updateTabState_no_dId_change hkmid hwmem hmem'
                        have hch2 : w.downloadId ≠ st.downloadId := by
                          rw [← hdid']
                          exact hch
                        obtain ⟨h1, h2, h3⟩ := matchResult_change hk1 hnz hmem hmidmem hch2
                        exact ⟨h1, h2, d, rfl, by rw [hdid', h3]⟩
                    | none =>
                        have htabs : (stepF s (Ev.terminal d cur err)).tabs =
                            s.tabs.map (updOne tid d) := by
                          simp [stepF, hfind, hc1, hum, hif, hr, hres, hq]
                        rw [htabs] at hmem'
                        have hmidmem2 : (i, st') ∈ (matchDownloadToTab d info.filename s.tabs).2 := by
                          rw [hres]
                          exact hmem'
                        obtain ⟨h1, h2, h3⟩ := matchResult_change hk1 hnz hmem hmidmem2 hch
                        exact ⟨h1, h2, d, rfl, h3⟩
                  · have hres := matchResult_of_not_true hr
                    have htabs : (stepF s (Ev.terminal d cur err)).tabs = s.tabs := by
                      simp [stepF, hfind, hc1, hum, hif, hr, hres]
                    rw [htabs] at hmem'
                    exact absurd (by rw [mem_unique_of_keysNodup hk1 hmem' hmem]) hch

/-- Witness: the binding invariant instantiated on the concrete reachable
state `c1Sys` and the matching event `nameDetermined 7 "x"`. -/
theorem C1_binding_invariant_witness :
    BoundInj c1Sys.tabs ∧ BoundInj (stepF c1Sys (Ev.nameDetermined 7 "x")).tabs :=
  ⟨(C1_binding_invariant c1Sys (Ev.nameDetermined 7 "x")
      (Reachable.step Reachable.init True.intro) True.intro True.intro).1,
   (C1_binding_invariant c1Sys (Ev.nameDetermined 7 "x")
      (Reachable.step Reachable.init True.intro) True.intro True.intro).2.1⟩
